import Mathlib

/-!
Verification of the FRET overlay core (packages/fret) against its
specification.  The TypeScript sources are shallowly embedded: byte
strings become `List ℕ`, JS numbers become `ℚ` (exact rational
idealization of IEEE doubles), `BigInt` becomes `ℕ`, timestamps become
`ℤ`, and effectful handlers become explicit state-passing functions.
Array.prototype.sort (stable since ES2019) is modelled by
`List.insertionSort` over the preorder `cmp a b ≤ 0` induced by the JS
comparator, which is stable in the same sense.

Modules of the repository that are referenced but whose sources are not
available (DigitreeStore, ring hash/distance helpers, the token bucket,
the relevance model and the size estimator) are modelled from the spec;
each such definition carries a doc comment starting `Modelled from the
spec:`.
-/

namespace Fret

/-! ## Ring arithmetic (bytes, XOR distance, lexicographic compare) -/

/-- A ring coordinate: a byte string (each element intended `< 256`).
Real coordinates are 32 bytes. -/
abbrev Coord := List Nat

/-- Modelled from the spec: `xorDistance(a,b)` is the byte-wise XOR of two
coordinates (`ring/distance.ts` is not among the provided sources). -/
def xorDistance (a b : Coord) : Coord :=
  List.zipWith (fun x y => Nat.xor x y) a b

/-- Modelled from the spec: `lexLess(a,b)` is strict lexicographic
byte-string comparison (`ring/distance.ts` is not among the provided
sources). -/
def lexLess : Coord → Coord → Bool
  | [], [] => false
  | [], _ :: _ => true
  | _ :: _, [] => false
  | a :: as, b :: bs => if a < b then true else if b < a then false else lexLess as bs

/-- `leadingByteIndex` from `selector/next-hop.ts`: index of the first
non-zero byte; `none` models the JS `Infinity` returned for the all-zero
string. -/
def leadingByteIndex (u : Coord) : Option Nat :=
  u.findIdx? (fun b => b ≠ 0)

/-- `betterByDist` from `selector/next-hop.ts`: strict order by
lexicographic distance, ties broken by smaller id. -/
def betterByDist (idA : String) (distA : Coord) (idB : String) (distB : Coord) : Bool :=
  if lexLess distA distB then true
  else if lexLess distB distA then false
  else idA < idB

/-- `isNear` from `selector/next-hop.ts`: `dist ≤ nearRadius`. -/
def isNear (dist nearRadius : Coord) : Bool :=
  !(lexLess nearRadius dist)

/-- `equalBytes` from `selector/next-hop.ts`. -/
def equalBytes (a b : Coord) : Bool :=
  a = b

/-- Leading-zero bit count of a byte string, as computed by
`normalizeDistance` in `selector/next-hop.ts` (`Math.clz32(v) - 24` for a
byte `v ≠ 0` is `7 - log2 v`). -/
def lzBits : Coord → Nat
  | [] => 0
  | v :: r => if v = 0 then 8 + lzBits r else 7 - Nat.log2 v

/-- `normalizeDistance` from `selector/next-hop.ts`. -/
def normalizeDistance (dist : Coord) : ℚ :=
  let totalBits : ℚ := 8 * dist.length
  let lz : ℚ := lzBits dist
  if totalBits ≤ lz then 0
  else max 0 (min 1 (1 - lz / totalBits))

/-! ## Big-endian encoding and `computeNearRadius`
(`service/payload-heuristic.ts`) -/

/-- Big-endian byte encoding with a fixed width, mirroring the output
loop of `computeNearRadius` (`out[i] = val & 0xff; val >>= 8` from the
last index down). -/
def natToBytesBE : Nat → Nat → List Nat
  | 0, _ => []
  | n + 1, v => natToBytesBE n (v / 256) ++ [v % 256]

/-- JS `Math.round`: round half toward `+∞`. -/
def jsRound (q : ℚ) : ℤ :=
  ⌊q + 1 / 2⌋

/-- The ring modulus `2^256` (`RING_SIZE` in `payload-heuristic.ts`). -/
def RING_SIZE : Nat := 2 ^ 256

/-- `computeNearRadius` from `service/payload-heuristic.ts`.  `sizeEstimate`
is a JS number (idealized `ℚ`), `k` and `beta` are integers; BigInt
division is exact `ℕ` division. -/
def computeNearRadius (sizeEstimate : ℚ) (k : Nat) (beta : Nat := 2) : Coord :=
  if sizeEstimate < 1 then List.replicate 32 0
  else
    let r : Nat := max 1 (jsRound sizeEstimate).toNat
    let span : Nat := k * (RING_SIZE / r)
    let val : Nat := span * beta
    let val : Nat := if RING_SIZE ≤ val then RING_SIZE - 1 else val
    natToBytesBE 32 val

theorem natToBytesBE_zero_eq_replicate : ∀ n, natToBytesBE n 0 = List.replicate n 0 := by
  intro n
  induction n with
  | zero => rfl
  | succ m ih =>
      show natToBytesBE m (0 / 256) ++ [0 % 256] = List.replicate (m + 1) 0
      rw [Nat.zero_div, ih]
      simp [List.replicate_succ']

theorem clamp_eq_min (w R : Nat) (hR : 0 < R) :
    (if R ≤ w * 2 then R - 1 else w * 2) = min (2 * w) (R - 1) := by
  split_ifs with h <;> omega

/-- C9: for every `sizeEstimate` and `k` (with the default `β = 2`),
`computeNearRadius` returns the 32-byte big-endian encoding of
`min(β·k·(2^256 / max(1, round(sizeEstimate))), 2^256 − 1)` (exact
integer division) when `sizeEstimate ≥ 1`, and the all-zero 32-byte
coordinate when `sizeEstimate < 1`. -/
theorem computeNearRadius_spec (s : ℚ) (k : Nat) :
    (1 ≤ s → computeNearRadius s k =
      natToBytesBE 32 (min (2 * (k * (RING_SIZE / max 1 (jsRound s).toNat))) (RING_SIZE - 1)))
    ∧ (s < 1 → computeNearRadius s k = List.replicate 32 0) := by
  constructor
  · intro hs
    have hns : ¬ s < 1 := not_lt.mpr hs
    show (if s < 1 then List.replicate 32 0 else _) = _
    rw [if_neg hns]
    show natToBytesBE 32
        (if RING_SIZE ≤ k * (RING_SIZE / max 1 (jsRound s).toNat) * 2 then RING_SIZE - 1
         else k * (RING_SIZE / max 1 (jsRound s).toNat) * 2) = _
    rw [clamp_eq_min _ _ (by unfold RING_SIZE; positivity)]
  · intro hs
    show (if s < 1 then List.replicate 32 0 else _) = _
    rw [if_pos hs]

theorem computeNearRadius_spec_witness :
    (1 : ℚ) ≤ 10 ∧ computeNearRadius 10 5 =
      natToBytesBE 32 (min (2 * (5 * (RING_SIZE / max 1 (jsRound 10).toNat))) (RING_SIZE - 1)) :=
  ⟨by norm_num, (computeNearRadius_spec 10 5).1 (by norm_num)⟩

/-! ## Digitree store (modelled from the spec, §4.2)

`store/digitree-store.ts` is not among the provided sources; only its
callers and tests are.  The store is modelled from the spec: an id-keyed
collection of peer entries ordered by ring coordinate, with
successor/predecessor walks and protected neighbourhoods. -/

/-- A peer entry (spec §3, "Peer entry").  `connectedState` is `true` for
`'connected'`. -/
structure PeerEntry where
  id : String
  coord : Coord
  connectedState : Bool
  relevance : ℚ
  lastAccess : ℤ
  accessCount : Nat
  successCount : Nat
  failureCount : Nat
  avgLatencyMs : ℚ
deriving DecidableEq, Repr

/-- Modelled from the spec: the Digitree store carried as a list of
entries in insertion order (iteration by coordinate is produced by the
walk functions below). -/
abbrev DStore := List PeerEntry

/-- `getById`: first entry with the given id. -/
def getById (st : DStore) (pid : String) : Option PeerEntry :=
  st.find? (fun e => e.id == pid)

/-- Ring-order "ascending by coordinate, ties by id" (spec §4.1:
tie-break on equal coordinates is lexicographic on id). -/
def coordIdLe (a b : PeerEntry) : Prop :=
  (if lexLess a.coord b.coord then true
   else if lexLess b.coord a.coord then false
   else decide (a.id ≤ b.id)) = true

instance : DecidableRel coordIdLe := fun _ _ =>
  inferInstanceAs (Decidable (_ = true))

/-- Ring-order "descending by coordinate, ties by id". -/
def coordIdGe (a b : PeerEntry) : Prop :=
  (if lexLess b.coord a.coord then true
   else if lexLess a.coord b.coord then false
   else decide (a.id ≤ b.id)) = true

instance : DecidableRel coordIdGe := fun _ _ =>
  inferInstanceAs (Decidable (_ = true))

/-- Modelled from the spec (§4.1): the full successor walk — entries
with coordinate `≥ c` in increasing order, then wrap to the smallest. -/
def rightWalk (st : DStore) (c : Coord) : List String :=
  (List.insertionSort coordIdLe (st.filter (fun e => !(lexLess e.coord c))) ++
   List.insertionSort coordIdLe (st.filter (fun e => lexLess e.coord c))).map
    (fun e => e.id)

/-- Modelled from the spec (§4.1): the full predecessor walk — entries
with coordinate `< c` in decreasing order, then wrap from the top. -/
def leftWalk (st : DStore) (c : Coord) : List String :=
  (List.insertionSort coordIdGe (st.filter (fun e => lexLess e.coord c)) ++
   List.insertionSort coordIdGe (st.filter (fun e => !(lexLess e.coord c)))).map
    (fun e => e.id)

/-- Modelled from the spec (§4.2): `neighborsRight(coord, k)` returns up
to `k` ids in increasing coordinate order starting at the first entry
whose coordinate is `≥ coord`, wrapping past the top of the ring. -/
def neighborsRight (st : DStore) (c : Coord) (k : Nat) : List String :=
  (rightWalk st c).take k

/-- Modelled from the spec (§4.2): `neighborsLeft(coord, k)` mirrors
`neighborsRight` in decreasing order, starting at the last entry whose
coordinate is `< coord` and wrapping from the bottom of the ring. -/
def neighborsLeft (st : DStore) (c : Coord) (k : Nat) : List String :=
  (leftWalk st c).take k

/-- Modelled from the spec (§3, lifecycle): a fresh entry created by
`upsert` starts disconnected with zeroed counters. -/
def freshEntry (pid : String) (c : Coord) : PeerEntry :=
  { id := pid, coord := c, connectedState := false, relevance := 0,
    lastAccess := 0, accessCount := 0, successCount := 0,
    failureCount := 0, avgLatencyMs := 0 }

/-- Modelled from the spec (§4.2): `upsert(id, coord)` creates the entry
or updates its coordinate in place. -/
def upsert (st : DStore) (pid : String) (c : Coord) : DStore :=
  if (getById st pid).isSome then
    st.map (fun e => if e.id = pid then { e with coord := c } else e)
  else st ++ [freshEntry pid c]

/-- Modelled from the spec (§4.2): `remove(id)`. -/
def removeId (st : DStore) (pid : String) : DStore :=
  st.filter (fun e => e.id ≠ pid)

/-- Modelled from the spec (§4.2): `protectedIdsAround(selfCoord, m)` is
the union of the `m` nearest-right and `m` nearest-left ids. -/
def protectedIdsAround (st : DStore) (selfCoord : Coord) (m : Nat) : List String :=
  neighborsRight st selfCoord m ++ neighborsLeft st selfCoord m

/-! ## Next-hop selector (`selector/next-hop.ts`) -/

/-- `NextHopOptions` from `selector/next-hop.ts`.  The `backoffPenalty`
callback is carried as an optional function. -/
structure NextHopOptions where
  nearRadius : Option Coord := none
  confidence : Option ℚ := none
  backoffPenalty : Option (String → ℚ) := none
  connectedToleranceBytes : Option Nat := none

/-- `CostWeights` from `selector/next-hop.ts`. -/
structure CostWeights where
  wD : ℚ
  wConn : ℚ
  wQ : ℚ
  wB : ℚ
deriving DecidableEq

/-- `weightsForContext` from `selector/next-hop.ts`. -/
def weightsForContext (near : Bool) (confidence : ℚ) : CostWeights :=
  let wD : ℚ := if near then 7/10 else 2/5
  let wConn : ℚ := if near then 1/10 else 2/5
  let cAdj : ℚ := (confidence - 1/2) * (1/5)
  { wD := max (1/10) (wD + cAdj), wConn := max (1/20) (wConn - cAdj),
    wQ := 1/10, wB := 1/10 }

/-- `cost` from `selector/next-hop.ts`. -/
def cost (normDist : ℚ) (connected : Bool) (linkQ backoff : ℚ) (w : CostWeights) : ℚ :=
  w.wD * normDist - w.wConn * (if connected then 1 else 0) - w.wQ * linkQ + w.wB * backoff

/-- The `Scored` tuple of `chooseNextHopCost`. -/
structure Scored where
  id : String
  dist : Coord
  near : Bool
  connected : Bool
  costVal : ℚ
deriving DecidableEq

/-- Scoring step of `chooseNextHopCost` for one candidate. -/
def scoreOf (targetCoord : Coord) (isConn : String → Bool) (linkQ : String → ℚ)
    (nearRadius : Coord) (confidence : ℚ) (backoff : String → ℚ)
    (pid : String) (e : PeerEntry) : Scored :=
  let dist := xorDistance e.coord targetCoord
  let near := isNear dist nearRadius
  let connected := isConn pid
  let w := weightsForContext near confidence
  { id := pid, dist := dist, near := near, connected := connected,
    costVal := cost (normalizeDistance dist) connected (linkQ pid) (backoff pid) w }

/-- JS comparator of the near partition (`a before-or-tied b` iff the
comparator value is `≤ 0`): strict distance via `betterByDist` (which
already breaks distance ties by id), then connected-first, then lower
cost. -/
def nearLe (a b : Scored) : Prop :=
  (if betterByDist a.id a.dist b.id b.dist then true
   else if betterByDist b.id b.dist a.id a.dist then false
   else if a.connected ≠ b.connected then a.connected
   else decide (a.costVal ≤ b.costVal)) = true

instance : DecidableRel nearLe := fun _ _ =>
  inferInstanceAs (Decidable (_ = true))

/-- JS comparator of the far partition: cost, ties by `betterByDist`. -/
def farLe (a b : Scored) : Prop :=
  (if a.costVal ≠ b.costVal then decide (a.costVal ≤ b.costVal)
   else betterByDist a.id a.dist b.id b.dist) = true

instance : DecidableRel farLe := fun _ _ =>
  inferInstanceAs (Decidable (_ = true))

/-- Partition-and-pick step of `chooseNextHopCost`: the near partition is
sorted by `nearLe` and its head returned; otherwise the far partition is
sorted by `farLe`. -/
def pickScored (scored : List Scored) : Option String :=
  if scored.isEmpty then none
  else if (scored.filter (fun s => s.near)).isEmpty then
    match List.insertionSort farLe (scored.filter (fun s => !s.near)) with
    | [] => none
    | x :: _ => some x.id
  else
    match List.insertionSort nearLe (scored.filter (fun s => s.near)) with
    | [] => none
    | x :: _ => some x.id

/-- `chooseNextHopCost` from `selector/next-hop.ts` (cost-function mode;
`nearRadius` is always present on this path). -/
def chooseNextHopCost (store : DStore) (targetCoord : Coord) (candidates : List String)
    (isConn : String → Bool) (linkQ : String → ℚ) (nearRadius : Coord)
    (confidence : ℚ) (backoff : String → ℚ) : Option String :=
  pickScored (candidates.filterMap (fun pid =>
    (getById store pid).map
      (scoreOf targetCoord isConn linkQ nearRadius confidence backoff pid)))

/-- The scored tuple of `chooseNextHopLegacy`. -/
structure LScored where
  id : String
  dist : Coord
  connected : Bool
  score : ℚ
deriving DecidableEq

/-- Legacy scoring step: `score = (connected ? 1 : 0) + 0.25·linkQ`. -/
def lscoreOf (targetCoord : Coord) (isConn : String → Bool) (linkQ : String → ℚ)
    (pid : String) (e : PeerEntry) : LScored :=
  { id := pid, dist := xorDistance e.coord targetCoord, connected := isConn pid,
    score := (if isConn pid then 1 else 0) + (1/4) * linkQ pid }

/-- One step of the `bestByDist` accumulation of `chooseNextHopLegacy`. -/
def bbStep (best : Option (String × Coord)) (s : LScored) : Option (String × Coord) :=
  match best with
  | none => some (s.id, s.dist)
  | some b => if betterByDist s.id s.dist b.1 b.2 then some (s.id, s.dist) else best

/-- The `bestByDist` accumulation of `chooseNextHopLegacy`. -/
def bbFold (acc : Option (String × Coord)) (l : List LScored) : Option (String × Coord) :=
  l.foldl bbStep acc

/-- The leading-byte tolerance test of `chooseNextHopLegacy`
(`lead <= bestLead + connectedToleranceBytes`, with `none` playing JS
`Infinity`). -/
def leadWithin (lead best : Option Nat) (tol : Nat) : Bool :=
  match best, lead with
  | none, _ => true
  | some _, none => false
  | some bl, some l => l ≤ bl + tol

/-- One step of the `bestConnected` accumulation of `chooseNextHopLegacy`. -/
def bcStep (bestLead : Option Nat) (tol : Nat) (bc : Option LScored) (s : LScored) :
    Option LScored :=
  if !s.connected then bc
  else if !(leadWithin (leadingByteIndex s.dist) bestLead tol) then bc
  else
    match bc with
    | none => some s
    | some b =>
      if betterByDist s.id s.dist b.id b.dist then some s
      else if equalBytes s.dist b.dist then
        if b.score < s.score ∨ (s.score = b.score ∧ s.id < b.id) then some s else bc
      else bc

/-- The `bestConnected` accumulation of `chooseNextHopLegacy`. -/
def bcFold (bestLead : Option Nat) (tol : Nat) (acc : Option LScored)
    (l : List LScored) : Option LScored :=
  l.foldl (bcStep bestLead tol) acc

/-- Selection step of `chooseNextHopLegacy` over the scored list:
`bestConnected?.id ?? bestByDist.id`, `undefined` when nothing scored. -/
def legacyPick (tol : Nat) (scored : List LScored) : Option String :=
  match bbFold none scored with
  | none => none
  | some best =>
      match bcFold (leadingByteIndex best.2) tol none scored with
      | some bc => some bc.id
      | none => some best.1

/-- `chooseNextHopLegacy` from `selector/next-hop.ts`. -/
def chooseNextHopLegacy (store : DStore) (targetCoord : Coord) (candidates : List String)
    (isConn : String → Bool) (linkQ : String → ℚ) (tol : Nat) : Option String :=
  legacyPick tol (candidates.filterMap (fun pid =>
    (getById store pid).map (lscoreOf targetCoord isConn linkQ pid)))

/-- `chooseNextHop` from `selector/next-hop.ts`: cost-function mode when
`nearRadius` is supplied, legacy mode otherwise. -/
def chooseNextHop (store : DStore) (targetCoord : Coord) (candidates : List String)
    (isConn : String → Bool) (linkQ : String → ℚ)
    (opts : NextHopOptions) : Option String :=
  match opts.nearRadius with
  | some r =>
      chooseNextHopCost store targetCoord candidates isConn linkQ r
        (opts.confidence.getD (1/2)) (opts.backoffPenalty.getD (fun _ => 0))
  | none =>
      chooseNextHopLegacy store targetCoord candidates isConn linkQ
        (opts.connectedToleranceBytes.getD 1)

/-! ## Order-theoretic facts about `lexLess` and `betterByDist` -/

theorem lexLess_irrefl : ∀ x : Coord, lexLess x x = false := by
  intro x
  induction x with
  | nil => rfl
  | cons a as ih => simp [lexLess, ih]

theorem lexLess_asymm : ∀ {x y : Coord}, lexLess x y = true → lexLess y x = false := by
  intro x
  induction x with
  | nil =>
      intro y h
      cases y with
      | nil => simp [lexLess] at h
      | cons b bs => simp [lexLess]
  | cons a as ih =>
      intro y h
      cases y with
      | nil => simp [lexLess] at h
      | cons b bs =>
          simp only [lexLess] at h ⊢
          by_cases hab : a < b
          · have hba : ¬ b < a := by omega
            simp [hab, hba]
          · by_cases hba : b < a
            · simp [hab, hba] at h
            · simp only [if_neg hab, if_neg hba] at h
              simp [hab, hba, ih h]

theorem lexLess_trans : ∀ {x y z : Coord},
    lexLess x y = true → lexLess y z = true → lexLess x z = true := by
  intro x
  induction x with
  | nil =>
      intro y z h1 h2
      cases y with
      | nil => simp [lexLess] at h1
      | cons b bs =>
          cases z with
          | nil => simp [lexLess] at h2
          | cons c cs => simp [lexLess]
  | cons a as ih =>
      intro y z h1 h2
      cases y with
      | nil => simp [lexLess] at h1
      | cons b bs =>
          cases z with
          | nil => simp [lexLess] at h2
          | cons c cs =>
              simp only [lexLess] at h1 h2 ⊢
              by_cases hab : a < b <;> by_cases hbc : b < c
              · have : a < c := by omega
                simp [this]
              · have hcb : ¬ c < b := by simp [lexLess] at h2; omega
                have : a < c := by omega
                simp [this]
              · have hba : ¬ b < a := by simp [lexLess] at h1; omega
                have : a < c := by omega
                simp [this]
              · have hba : ¬ b < a := by simp [lexLess] at h1; omega
                have hcb : ¬ c < b := by simp [lexLess] at h2; omega
                have hac : ¬ a < c := by omega
                have hca : ¬ c < a := by omega
                simp only [if_neg hab, if_neg hba] at h1
                simp only [if_neg hbc, if_neg hcb] at h2
                simp [hac, hca, ih h1 h2]

/-- Lists that compare equal under `lexLess` are substitutable on the left. -/
theorem lexLess_congr_left : ∀ {x y : Coord}, lexLess x y = false → lexLess y x = false →
    ∀ z, lexLess x z = lexLess y z := by
  intro x
  induction x with
  | nil =>
      intro y hxy hyx z
      cases y with
      | nil => rfl
      | cons b bs => simp [lexLess] at hxy
  | cons a as ih =>
      intro y hxy hyx z
      cases y with
      | nil => simp [lexLess] at hyx
      | cons b bs =>
          simp only [lexLess] at hxy hyx
          by_cases hab : a < b
          · simp [hab] at hxy
          · by_cases hba : b < a
            · simp [hab, hba] at hyx
            · simp only [if_neg hab, if_neg hba] at hxy hyx
              have hEq : a = b := by omega
              subst hEq
              cases z with
              | nil => simp [lexLess]
              | cons c cs =>
                  simp only [lexLess]
                  by_cases hac : a < c
                  · simp [hac]
                  · by_cases hca : c < a
                    · simp [hac, hca]
                    · simp [hac, hca, ih hxy hyx cs]

/-- Lists that compare equal under `lexLess` are substitutable on the right. -/
theorem lexLess_congr_right : ∀ {x y : Coord}, lexLess x y = false → lexLess y x = false →
    ∀ z, lexLess z x = lexLess z y := by
  intro x
  induction x with
  | nil =>
      intro y hxy hyx z
      cases y with
      | nil => rfl
      | cons b bs => simp [lexLess] at hxy
  | cons a as ih =>
      intro y hxy hyx z
      cases y with
      | nil => simp [lexLess] at hyx
      | cons b bs =>
          simp only [lexLess] at hxy hyx
          by_cases hab : a < b
          · simp [hab] at hxy
          · by_cases hba : b < a
            · simp [hab, hba] at hyx
            · simp only [if_neg hab, if_neg hba] at hxy hyx
              have hEq : a = b := by omega
              subst hEq
              cases z with
              | nil => simp [lexLess]
              | cons c cs =>
                  simp only [lexLess]
                  by_cases hca : c < a
                  · simp [hca]
                  · by_cases hac : a < c
                    · simp [hca, hac]
                    · simp [hca, hac, ih hxy hyx cs]


theorem betterByDist_irrefl (i : String) (d : Coord) : betterByDist i d i d = false := by
  simp [betterByDist, lexLess_irrefl]

theorem betterByDist_asymm {i j : String} {d e : Coord}
    (h : betterByDist i d j e = true) : betterByDist j e i d = false := by
  unfold betterByDist at h ⊢
  by_cases hde : lexLess d e = true
  · have h2 := lexLess_asymm hde
    simp [hde, h2]
  · have hde' : lexLess d e = false := by simpa using hde
    simp only [hde'] at h
    by_cases hed : lexLess e d = true
    · simp [hed] at h
    · have hed' : lexLess e d = false := by simpa using hed
      simp only [hed'] at h
      simp only [Bool.false_eq_true, if_false] at h
      have hij : i < j := by simpa using h
      simp [hde', hed', lt_asymm hij]

/-- If neither of two (id, dist) pairs is better than the other, their
distances are `lexLess`-equivalent and the ids are equal. -/
theorem betterByDist_tight {i j : String} {d e : Coord}
    (h1 : betterByDist i d j e = false) (h2 : betterByDist j e i d = false) :
    lexLess d e = false ∧ lexLess e d = false ∧ i = j := by
  unfold betterByDist at h1 h2
  by_cases hde : lexLess d e = true
  · simp [hde] at h1
  · by_cases hed : lexLess e d = true
    · simp [hed] at h2
    · have hde' : lexLess d e = false := by simpa using hde
      have hed' : lexLess e d = false := by simpa using hed
      simp only [hde', hed', Bool.false_eq_true, if_false] at h1 h2
      have hij : ¬ i < j := by simpa using h1
      have hji : ¬ j < i := by simpa using h2
      exact ⟨hde', hed', le_antisymm (not_lt.mp hji) (not_lt.mp hij)⟩

theorem betterByDist_trans : ∀ {i j k : String} {d e f : Coord},
    betterByDist i d j e = true → betterByDist j e k f = true →
    betterByDist i d k f = true := by
  intro i j k d e f h1 h2
  unfold betterByDist at h1 h2 ⊢
  by_cases hde : lexLess d e = true <;> by_cases hef : lexLess e f = true
  · simp [lexLess_trans hde hef]
  · have hef' : lexLess e f = false := by simpa using hef
    simp only [hef', Bool.false_eq_true, if_false] at h2
    by_cases hfe : lexLess f e = true
    · simp [hfe] at h2
    · have hfe' : lexLess f e = false := by simpa using hfe
      have : lexLess d f = true := by rw [← lexLess_congr_right hef' hfe' d]; exact hde
      simp [this]
  · have hde' : lexLess d e = false := by simpa using hde
    simp only [hde', Bool.false_eq_true, if_false] at h1
    by_cases hed : lexLess e d = true
    · simp [hed] at h1
    · have hed' : lexLess e d = false := by simpa using hed
      have : lexLess d f = true := by rw [lexLess_congr_left hde' hed' f]; exact hef
      simp [this]
  · have hde' : lexLess d e = false := by simpa using hde
    have hef' : lexLess e f = false := by simpa using hef
    simp only [hde', hef', Bool.false_eq_true, if_false] at h1 h2
    by_cases hed : lexLess e d = true
    · simp [hed] at h1
    · by_cases hfe : lexLess f e = true
      · simp [hfe] at h2
      · have hed' : lexLess e d = false := by simpa using hed
        have hfe' : lexLess f e = false := by simpa using hfe
        simp only [hed', hfe', Bool.false_eq_true, if_false] at h1 h2
        have hij : i < j := by simpa using h1
        have hjk : j < k := by simpa using h2
        have hdf : lexLess d f = false := by
          rw [lexLess_congr_left hde' hed' f]; exact hef'
        have hfd : lexLess f d = false := by
          rw [lexLess_congr_right hde' hed' f]; exact hfe'
        simp [hdf, hfd, lt_trans hij hjk]

theorem betterByDist_congr_right {i j : String} {d e : Coord}
    (h1 : betterByDist i d j e = false) (h2 : betterByDist j e i d = false) :
    ∀ (k : String) (f : Coord), betterByDist k f i d = betterByDist k f j e := by
  obtain ⟨hde, hed, rfl⟩ := betterByDist_tight h1 h2
  intro k f
  unfold betterByDist
  rw [lexLess_congr_right hde hed f, lexLess_congr_left hde hed f]

theorem betterByDist_congr_left {i j : String} {d e : Coord}
    (h1 : betterByDist i d j e = false) (h2 : betterByDist j e i d = false) :
    ∀ (k : String) (f : Coord), betterByDist i d k f = betterByDist j e k f := by
  obtain ⟨hde, hed, rfl⟩ := betterByDist_tight h1 h2
  intro k f
  unfold betterByDist
  rw [lexLess_congr_right hde hed f, lexLess_congr_left hde hed f]

/-! ## The near-partition comparator is a total preorder -/

theorem nearLe_cases {a b : Scored} : nearLe a b ↔
    betterByDist a.id a.dist b.id b.dist = true ∨
    (betterByDist a.id a.dist b.id b.dist = false ∧
     betterByDist b.id b.dist a.id a.dist = false ∧
     ((a.connected = true ∧ b.connected = false) ∨
      (a.connected = b.connected ∧ a.costVal ≤ b.costVal))) := by
  constructor
  · intro h
    unfold nearLe at h
    by_cases h1 : betterByDist a.id a.dist b.id b.dist = true
    · exact Or.inl h1
    · have h1' : betterByDist a.id a.dist b.id b.dist = false := by simpa using h1
      rw [h1'] at h
      by_cases h2 : betterByDist b.id b.dist a.id a.dist = true
      · rw [h2] at h; simp at h
      · have h2' : betterByDist b.id b.dist a.id a.dist = false := by simpa using h2
        rw [h2'] at h
        simp only [Bool.false_eq_true, if_false] at h
        by_cases hc : a.connected = b.connected
        · have hni : ¬(a.connected ≠ b.connected) := by simp [hc]
          rw [if_neg hni] at h
          exact Or.inr ⟨h1', h2', Or.inr ⟨hc, by simpa using h⟩⟩
        · have hyi : a.connected ≠ b.connected := hc
          rw [if_pos hyi] at h
          refine Or.inr ⟨h1', h2', Or.inl ⟨h, ?_⟩⟩
          cases hbb : b.connected
          · rfl
          · rw [h, hbb] at hc; simp at hc
  · intro h
    unfold nearLe
    rcases h with h1 | ⟨h1', h2', hrest⟩
    · rw [h1]; simp
    · rw [h1', h2']
      simp only [Bool.false_eq_true, if_false]
      rcases hrest with ⟨ha, hb⟩ | ⟨he, hle⟩
      · have hyi : a.connected ≠ b.connected := by rw [ha, hb]; simp
        rw [if_pos hyi]
        exact ha
      · have hni : ¬(a.connected ≠ b.connected) := by simp [he]
        rw [if_neg hni]
        simpa using hle

theorem nearLe_total : ∀ a b : Scored, nearLe a b ∨ nearLe b a := by
  intro a b
  by_cases h1 : betterByDist a.id a.dist b.id b.dist = true
  · exact Or.inl (nearLe_cases.mpr (Or.inl h1))
  · by_cases h2 : betterByDist b.id b.dist a.id a.dist = true
    · exact Or.inr (nearLe_cases.mpr (Or.inl h2))
    · have h1' : betterByDist a.id a.dist b.id b.dist = false := by simpa using h1
      have h2' : betterByDist b.id b.dist a.id a.dist = false := by simpa using h2
      by_cases hc : a.connected = b.connected
      · rcases le_total a.costVal b.costVal with h | h
        · exact Or.inl (nearLe_cases.mpr (Or.inr ⟨h1', h2', Or.inr ⟨hc, h⟩⟩))
        · exact Or.inr (nearLe_cases.mpr (Or.inr ⟨h2', h1', Or.inr ⟨hc.symm, h⟩⟩))
      · cases ha : a.connected <;> cases hb : b.connected
        · rw [ha, hb] at hc; simp at hc
        · exact Or.inr (nearLe_cases.mpr (Or.inr ⟨h2', h1', Or.inl ⟨hb, ha⟩⟩))
        · exact Or.inl (nearLe_cases.mpr (Or.inr ⟨h1', h2', Or.inl ⟨ha, hb⟩⟩))
        · rw [ha, hb] at hc; simp at hc

theorem nearLe_trans : ∀ a b c : Scored, nearLe a b → nearLe b c → nearLe a c := by
  intro a b c hab hbc
  rcases nearLe_cases.mp hab with h1 | ⟨hab1, hab2, hrest1⟩
  · rcases nearLe_cases.mp hbc with h2 | ⟨hbc1, hbc2, _⟩
    · exact nearLe_cases.mpr (Or.inl (betterByDist_trans h1 h2))
    · -- b ≃ c as (id, dist) pairs: substitute on the right of h1
      have := betterByDist_congr_right hbc1 hbc2 a.id a.dist
      exact nearLe_cases.mpr (Or.inl (by rw [← this]; exact h1))
  · rcases nearLe_cases.mp hbc with h2 | ⟨hbc1, hbc2, hrest2⟩
    · -- a ≃ b as (id, dist) pairs: substitute on the left of h2
      have := betterByDist_congr_left hab1 hab2 c.id c.dist
      exact nearLe_cases.mpr (Or.inl (by rw [this]; exact h2))
    · -- both pairs equivalent; combine the connected/cost lexicographic tails
      have hac1 : betterByDist a.id a.dist c.id c.dist = false := by
        rw [← betterByDist_congr_right hbc1 hbc2 a.id a.dist]; exact hab1
      have hac2 : betterByDist c.id c.dist a.id a.dist = false := by
        rw [← betterByDist_congr_left hbc1 hbc2 a.id a.dist]
        · exact hab2
      refine nearLe_cases.mpr (Or.inr ⟨hac1, hac2, ?_⟩)
      rcases hrest1 with ⟨ha, hb⟩ | ⟨he1, hle1⟩
      · rcases hrest2 with ⟨hb', _⟩ | ⟨he2, _⟩
        · rw [hb] at hb'; simp at hb'
        · exact Or.inl ⟨ha, by rw [← he2]; exact hb⟩
      · rcases hrest2 with ⟨hb', hc'⟩ | ⟨he2, hle2⟩
        · exact Or.inl ⟨by rw [he1]; exact hb', hc'⟩
        · exact Or.inr ⟨by rw [he1]; exact he2, le_trans hle1 hle2⟩

instance : IsTotal Scored nearLe := ⟨nearLe_total⟩

instance : IsTrans Scored nearLe := ⟨nearLe_trans⟩

/-- A smaller element of the near order is never strictly better by
distance. -/
theorem nearLe_not_better {x s : Scored} (h : nearLe x s) :
    betterByDist s.id s.dist x.id x.dist = false := by
  rcases nearLe_cases.mp h with h1 | ⟨_, h2, _⟩
  · exact betterByDist_asymm h1
  · exact h2

@[simp] theorem scoreOf_id (t : Coord) (ic : String → Bool) (lq : String → ℚ)
    (r : Coord) (cf : ℚ) (bo : String → ℚ) (pid : String) (e : PeerEntry) :
    (scoreOf t ic lq r cf bo pid e).id = pid := rfl

@[simp] theorem scoreOf_dist (t : Coord) (ic : String → Bool) (lq : String → ℚ)
    (r : Coord) (cf : ℚ) (bo : String → ℚ) (pid : String) (e : PeerEntry) :
    (scoreOf t ic lq r cf bo pid e).dist = xorDistance e.coord t := rfl

@[simp] theorem scoreOf_near (t : Coord) (ic : String → Bool) (lq : String → ℚ)
    (r : Coord) (cf : ℚ) (bo : String → ℚ) (pid : String) (e : PeerEntry) :
    (scoreOf t ic lq r cf bo pid e).near = isNear (xorDistance e.coord t) r := rfl

/-- C3 (amended): in cost-function mode, whenever at least one candidate's
XOR distance to the target is ≤ `nearRadius`, `chooseNextHopCost` returns
a near candidate that is minimal under the ordering "strict XOR distance
(lexicographic), ties broken by lower id" — no other near candidate is
strictly better by `betterByDist`. -/
theorem pickScored_near (scored : List Scored)
    (h : scored.filter (fun s => s.near) ≠ []) :
    pickScored scored =
      (List.insertionSort nearLe (scored.filter (fun s => s.near))).head?.map
        (fun s => s.id) := by
  unfold pickScored
  have hscne : scored ≠ [] := by
    intro he
    rw [he] at h
    exact h rfl
  have h1 : scored.isEmpty = false := by
    cases hl : scored with
    | nil => exact absurd hl hscne
    | cons x xs => rfl
  rw [h1]
  simp only [Bool.false_eq_true, if_false]
  have h2 : (scored.filter (fun s => s.near)).isEmpty = false := by
    cases hl : scored.filter (fun s => s.near) with
    | nil => exact absurd hl h
    | cons x xs => rfl
  rw [h2]
  simp only [Bool.false_eq_true, if_false]
  cases hs : List.insertionSort nearLe (scored.filter (fun s => s.near)) with
  | nil =>
      exfalso
      have hp := List.perm_insertionSort nearLe (scored.filter (fun s => s.near))
      rw [hs] at hp
      exact h hp.symm.eq_nil
  | cons x xs => rfl

/-- C3 (amended): in cost-function mode, whenever at least one candidate's
XOR distance to the target is ≤ `nearRadius`, `chooseNextHopCost` returns
a near candidate that is minimal under the ordering "strict XOR distance
(lexicographic), ties broken by lower id" — no other near candidate is
strictly better by `betterByDist`. -/
theorem chooseNextHopCost_near_minimal
    (store : DStore) (target : Coord) (candidates : List String)
    (isConn : String → Bool) (linkQ : String → ℚ) (radius : Coord)
    (conf : ℚ) (backoff : String → ℚ)
    (hex : ∃ c ∈ candidates, ∃ e, getById store c = some e ∧
            isNear (xorDistance e.coord target) radius = true) :
    ∃ r er, chooseNextHopCost store target candidates isConn linkQ radius conf backoff = some r ∧
      r ∈ candidates ∧ getById store r = some er ∧
      isNear (xorDistance er.coord target) radius = true ∧
      ∀ c' ∈ candidates, ∀ e', getById store c' = some e' →
        isNear (xorDistance e'.coord target) radius = true →
        betterByDist c' (xorDistance e'.coord target) r (xorDistance er.coord target) = false := by
  classical
  obtain ⟨c, hc, e, hce, hnear⟩ := hex
  set f : String → Option Scored :=
    fun pid => (getById store pid).map (scoreOf target isConn linkQ radius conf backoff pid)
    with hf
  set scored : List Scored := candidates.filterMap f with hscored
  set nearC : List Scored := scored.filter (fun s => s.near) with hnearC
  have hsmem : scoreOf target isConn linkQ radius conf backoff c e ∈ scored := by
    rw [hscored]
    exact List.mem_filterMap.mpr ⟨c, hc, by rw [hf]; simp [hce]⟩
  have hncmem : scoreOf target isConn linkQ radius conf backoff c e ∈ nearC := by
    rw [hnearC]
    exact List.mem_filter.mpr ⟨hsmem, by simp [hnear]⟩
  have hncne : nearC ≠ [] := List.ne_nil_of_mem hncmem
  have hred : chooseNextHopCost store target candidates isConn linkQ radius conf backoff =
      (List.insertionSort nearLe nearC).head?.map (fun s => s.id) := by
    show pickScored scored = _
    rw [pickScored_near scored (hnearC ▸ hncne), ← hnearC]
  cases hs : List.insertionSort nearLe nearC with
  | nil =>
      exfalso
      have hp := List.perm_insertionSort nearLe nearC
      rw [hs] at hp
      exact hncne hp.symm.eq_nil
  | cons x xs =>
      have hxmem : x ∈ nearC := by
        have hx : x ∈ List.insertionSort nearLe nearC := by
          rw [hs]; exact List.mem_cons_self x xs
        exact (List.mem_insertionSort nearLe).mp hx
      have hxscored : x ∈ scored := (List.mem_filter.mp (hnearC ▸ hxmem)).1
      obtain ⟨cx, hcx, hfcx⟩ := List.mem_filterMap.mp (hscored ▸ hxscored)
      rw [hf] at hfcx
      obtain ⟨ex, hex, hxeq⟩ := Option.map_eq_some'.mp hfcx
      have hxnear : x.near = true := by
        simpa using (List.mem_filter.mp (hnearC ▸ hxmem)).2
      refine ⟨x.id, ex, ?_, ?_, ?_, ?_, ?_⟩
      · rw [hred, hs]; rfl
      · rw [← hxeq]; simpa using hcx
      · rw [← hxeq]; simpa using hex
      · rw [← hxeq] at hxnear; simpa using hxnear
      · intro c' hcmem e' he' hnear'
        have hs'mem : scoreOf target isConn linkQ radius conf backoff c' e' ∈ nearC := by
          rw [hnearC]
          refine List.mem_filter.mpr ⟨?_, by simp [hnear']⟩
          rw [hscored]
          exact List.mem_filterMap.mpr ⟨c', hcmem, by rw [hf]; simp [he']⟩
        have hs'sorted : scoreOf target isConn linkQ radius conf backoff c' e' ∈ x :: xs := by
          rw [← hs]
          exact (List.mem_insertionSort nearLe).mpr hs'mem
        have hdx : x.dist = xorDistance ex.coord target := by rw [← hxeq]; simp
        rcases List.mem_cons.mp hs'sorted with heq | htail
        · have h1 : (scoreOf target isConn linkQ radius conf backoff c' e').id = c' := by simp
          have h2 : (scoreOf target isConn linkQ radius conf backoff c' e').dist =
              xorDistance e'.coord target := by simp
          rw [← h1, ← h2, heq, ← hdx]
          exact betterByDist_irrefl x.id x.dist
        · have hsorted : List.Sorted nearLe (x :: xs) := by
            rw [← hs]; exact List.sorted_insertionSort nearLe nearC
          have hrel : nearLe x (scoreOf target isConn linkQ radius conf backoff c' e') :=
            List.rel_of_sorted_cons hsorted _ htail
          have hnb := nearLe_not_better hrel
          simpa [hdx] using hnb

/-- The claim's near-mode ordering, written from the spec's words:
strict XOR distance (lexicographic), ties broken by connected-first,
then by lower cost, then by lower id.  Used only to compare against the
implementation's actual ordering. -/
def specNearPrecedes (a b : Scored) : Bool :=
  if lexLess a.dist b.dist then true
  else if lexLess b.dist a.dist then false
  else if a.connected && !b.connected then true
  else if b.connected && !a.connected then false
  else if a.costVal < b.costVal then true
  else if b.costVal < a.costVal then false
  else decide (a.id < b.id)

def c3Target : Coord := List.replicate 32 0

def c3CoordAB : Coord := List.replicate 31 0 ++ [1]

def c3Radius : Coord := List.replicate 31 0 ++ [2]

def c3Store : DStore := [freshEntry "a" c3CoordAB, freshEntry "b" c3CoordAB]

def c3IsConn : String → Bool := fun s => s == "b"

def c3ScoreB : Scored :=
  scoreOf c3Target c3IsConn (fun _ => 1/2) c3Radius (1/2) (fun _ => 0) "b" (freshEntry "b" c3CoordAB)

def c3ScoreA : Scored :=
  scoreOf c3Target c3IsConn (fun _ => 1/2) c3Radius (1/2) (fun _ => 0) "a" (freshEntry "a" c3CoordAB)

/-- C3 counterexample: two candidates at the same coordinate (equal XOR
distance), only `"b"` connected.  The claim's ordering (connected-first
on distance ties) puts `"b"` first, but the implementation returns
`"a"`: distance ties are broken by lower id inside `betterByDist`, and
the connected-first comparison is unreachable. -/
theorem chooseNextHopCost_not_spec_order :
    chooseNextHopCost c3Store c3Target ["a", "b"] c3IsConn (fun _ => 1/2) c3Radius
        (1/2) (fun _ => 0) = some "a" ∧
    c3ScoreA.near = true ∧ c3ScoreB.near = true ∧
    specNearPrecedes c3ScoreB c3ScoreA = true ∧
    c3ScoreB.id ≠ "a" := by
  refine ⟨?_, ?_, ?_, ?_, ?_⟩
  · with_unfolding_all decide
  · with_unfolding_all decide
  · with_unfolding_all decide
  · with_unfolding_all decide
  · with_unfolding_all decide

theorem chooseNextHopCost_near_minimal_witness :
    (∃ c ∈ ["a", "b"], ∃ e, getById c3Store c = some e ∧
        isNear (xorDistance e.coord c3Target) c3Radius = true) ∧
    ∃ r er, chooseNextHopCost c3Store c3Target ["a", "b"] c3IsConn (fun _ => 1/2) c3Radius
        (1/2) (fun _ => 0) = some r ∧
      r ∈ ["a", "b"] ∧ getById c3Store r = some er ∧
      isNear (xorDistance er.coord c3Target) c3Radius = true ∧
      ∀ c' ∈ ["a", "b"], ∀ e', getById c3Store c' = some e' →
        isNear (xorDistance e'.coord c3Target) c3Radius = true →
        betterByDist c' (xorDistance e'.coord c3Target) r (xorDistance er.coord c3Target) = false :=
  ⟨⟨"a", by with_unfolding_all decide, freshEntry "a" c3CoordAB,
      by with_unfolding_all decide, by with_unfolding_all decide⟩,
   chooseNextHopCost_near_minimal c3Store c3Target ["a", "b"] c3IsConn (fun _ => 1/2) c3Radius
     (1/2) (fun _ => 0)
     ⟨"a", by with_unfolding_all decide, freshEntry "a" c3CoordAB,
       by with_unfolding_all decide, by with_unfolding_all decide⟩⟩

/-! ## Legacy-mode selector: supporting lemmas (C4) -/

theorem betterByDist_false_not_lexLess {i j : String} {d e : Coord}
    (h : betterByDist i d j e = false) : lexLess d e = false := by
  unfold betterByDist at h
  by_cases hde : lexLess d e = true
  · simp [hde] at h
  · simpa using hde

theorem notLexLess_trans {x y z : Coord}
    (h1 : lexLess x y = false) (h2 : lexLess y z = false) : lexLess x z = false := by
  by_contra hc
  have hxz : lexLess x z = true := by simpa using hc
  by_cases hzy : lexLess z y = true
  · have h := lexLess_trans hxz hzy
    rw [h] at h1
    simp at h1
  · have hzy' : lexLess z y = false := by simpa using hzy
    have hcong := lexLess_congr_right h2 hzy' x
    rw [← hcong] at hxz
    rw [hxz] at h1
    simp at h1

theorem betterByDist_neg_trans {i j k : String} {d e f : Coord}
    (h1 : betterByDist j e i d = false) (h2 : betterByDist k f j e = false) :
    betterByDist k f i d = false := by
  by_contra hc
  have hkf : betterByDist k f i d = true := by simpa using hc
  by_cases hjk : betterByDist j e k f = true
  · have h := betterByDist_trans hjk hkf
    rw [h] at h1
    simp at h1
  · have hjk' : betterByDist j e k f = false := by simpa using hjk
    have hcong := betterByDist_congr_left hjk' h2 i d
    rw [← hcong] at hkf
    rw [hkf] at h1
    simp at h1

theorem lead_le_of_not_lexLess : ∀ {x y : Coord}, lexLess x y = false →
    ∀ {bl : Nat}, leadingByteIndex y = some bl →
    ∃ l, leadingByteIndex x = some l ∧ l ≤ bl := by
  intro x
  induction x with
  | nil =>
      intro y hxy bl hy
      cases y with
      | nil => simp [leadingByteIndex] at hy
      | cons b bs => simp [lexLess] at hxy
  | cons a as ih =>
      intro y hxy bl hy
      cases y with
      | nil => simp [leadingByteIndex] at hy
      | cons b bs =>
          simp only [lexLess] at hxy
          by_cases hab : a < b
          · simp [hab] at hxy
          · by_cases hba : b < a
            · have ha : a ≠ 0 := by omega
              exact ⟨0, by simp [leadingByteIndex, ha], Nat.zero_le bl⟩
            · have hEq : a = b := by omega
              subst hEq
              simp only [if_neg hab, if_neg hba] at hxy
              by_cases ha : a = 0
              · subst ha
                have hstepx : leadingByteIndex ((0 : Nat) :: as) =
                    (leadingByteIndex as).map (· + 1) := by
                  simp [leadingByteIndex, List.findIdx?_cons]
                have hstepy : leadingByteIndex ((0 : Nat) :: bs) =
                    (leadingByteIndex bs).map (· + 1) := by
                  simp [leadingByteIndex, List.findIdx?_cons]
                rw [hstepy] at hy
                obtain ⟨bl', hbl', hblEq⟩ := Option.map_eq_some'.mp hy
                obtain ⟨l', hl', hle'⟩ := ih hxy hbl'
                refine ⟨l' + 1, ?_, by omega⟩
                rw [hstepx, hl']
                rfl
              · exact ⟨0, by simp [leadingByteIndex, ha], Nat.zero_le bl⟩

/-- Any candidate whose distance is not lexicographically smaller than the
best distance passes the legacy tolerance filter: the filter is vacuous. -/
theorem leadWithin_of_not_lexLess {d bd : Coord} (h : lexLess d bd = false) (tol : Nat) :
    leadWithin (leadingByteIndex d) (leadingByteIndex bd) tol = true := by
  unfold leadWithin
  cases hbd : leadingByteIndex bd with
  | none => rfl
  | some bl =>
      obtain ⟨l, hl, hle⟩ := lead_le_of_not_lexLess h hbd
      rw [hl]
      simpa using Nat.le_trans hle (Nat.le_add_right bl tol)

theorem bbFold_acc_some : ∀ (l : List LScored) (b : String × Coord),
    ∃ r, bbFold (some b) l = some r := by
  intro l
  induction l with
  | nil => intro b; exact ⟨b, rfl⟩
  | cons s rest ih =>
      intro b
      show ∃ r, bbFold (bbStep (some b) s) rest = some r
      have hred : bbStep (some b) s =
          if betterByDist s.id s.dist b.1 b.2 = true then some (s.id, s.dist) else some b := rfl
      rw [hred]
      by_cases h : betterByDist s.id s.dist b.1 b.2 = true
      · rw [if_pos h]; exact ih _
      · rw [if_neg (by simpa using h)]; exact ih _

theorem bbFold_min : ∀ (l : List LScored) (acc : Option (String × Coord))
    (r : String × Coord), bbFold acc l = some r →
    (∀ s ∈ l, betterByDist s.id s.dist r.1 r.2 = false) ∧
    (∀ b, acc = some b → betterByDist b.1 b.2 r.1 r.2 = false) := by
  intro l
  induction l with
  | nil =>
      intro acc r h
      refine ⟨fun s hs => absurd hs (List.not_mem_nil s), fun b hb => ?_⟩
      rw [hb] at h
      have hbr : b = r := by simpa [bbFold] using h
      rw [hbr]
      exact betterByDist_irrefl r.1 r.2
  | cons s rest ih =>
      intro acc r h
      have hstep : bbFold acc (s :: rest) = bbFold (bbStep acc s) rest := rfl
      rw [hstep] at h
      cases acc with
      | none =>
          have hb : bbStep none s = some (s.id, s.dist) := rfl
          rw [hb] at h
          obtain ⟨hrest, hacc⟩ := ih _ _ h
          have hsr := hacc _ rfl
          refine ⟨fun t ht => ?_, fun b hb' => by simp at hb'⟩
          rcases List.mem_cons.mp ht with rfl | htl
          · exact hsr
          · exact hrest t htl
      | some b =>
          by_cases hsb : betterByDist s.id s.dist b.1 b.2 = true
          · have hb : bbStep (some b) s = some (s.id, s.dist) := by
              show (if betterByDist s.id s.dist b.1 b.2 = true
                    then some (s.id, s.dist) else some b) = _
              rw [if_pos hsb]
            rw [hb] at h
            obtain ⟨hrest, hacc⟩ := ih _ _ h
            have hsr := hacc _ rfl
            refine ⟨fun t ht => ?_, fun b' hb' => ?_⟩
            · rcases List.mem_cons.mp ht with rfl | htl
              · exact hsr
              · exact hrest t htl
            · cases hb'
              by_contra hc
              have hbr : betterByDist b.1 b.2 r.1 r.2 = true := by simpa using hc
              have h2 := betterByDist_trans hsb hbr
              rw [h2] at hsr
              simp at hsr
          · have hsb' : betterByDist s.id s.dist b.1 b.2 = false := by simpa using hsb
            have hb : bbStep (some b) s = some b := by
              show (if betterByDist s.id s.dist b.1 b.2 = true
                    then some (s.id, s.dist) else some b) = _
              rw [if_neg (by simpa using hsb)]
            rw [hb] at h
            obtain ⟨hrest, hacc⟩ := ih _ _ h
            have hbr := hacc _ rfl
            refine ⟨fun t ht => ?_, fun b' hb' => ?_⟩
            · rcases List.mem_cons.mp ht with rfl | htl
              · exact betterByDist_neg_trans hbr hsb'
              · exact hrest t htl
            · cases hb'
              exact hbr

theorem bbFold_mem : ∀ (l : List LScored) (acc : Option (String × Coord))
    (r : String × Coord), bbFold acc l = some r →
    acc = some r ∨ ∃ s ∈ l, (s.id, s.dist) = r := by
  intro l
  induction l with
  | nil =>
      intro acc r h
      exact Or.inl (by simpa [bbFold] using h)
  | cons s rest ih =>
      intro acc r h
      have hstep : bbFold acc (s :: rest) = bbFold (bbStep acc s) rest := rfl
      rw [hstep] at h
      rcases ih _ _ h with hacc | ⟨t, ht, hteq⟩
      · cases acc with
        | none =>
            have : bbStep none s = some (s.id, s.dist) := rfl
            rw [this] at hacc
            exact Or.inr ⟨s, List.mem_cons_self s rest, by injection hacc⟩
        | some b =>
            replace hacc : (if betterByDist s.id s.dist b.1 b.2 = true
                then some (s.id, s.dist) else some b) = some r := hacc
            by_cases hsb : betterByDist s.id s.dist b.1 b.2 = true
            · rw [if_pos hsb] at hacc
              exact Or.inr ⟨s, List.mem_cons_self s rest, by injection hacc⟩
            · rw [if_neg (by simpa using hsb)] at hacc
              exact Or.inl hacc
      · exact Or.inr ⟨t, List.mem_cons_of_mem s ht, hteq⟩

/-- `bcStep` on a `some` accumulator, in plain `if` form. -/
theorem bcStep_some_eq (bl : Option Nat) (tol : Nat) (b s : LScored) :
    bcStep bl tol (some b) s =
      if (!s.connected) = true then some b
      else if (!(leadWithin (leadingByteIndex s.dist) bl tol)) = true then some b
      else if betterByDist s.id s.dist b.id b.dist = true then some s
      else if equalBytes s.dist b.dist = true then
        (if b.score < s.score ∨ (s.score = b.score ∧ s.id < b.id) then some s else some b)
      else some b := rfl

/-- `bcStep` on an empty accumulator, in plain `if` form. -/
theorem bcStep_none_eq (bl : Option Nat) (tol : Nat) (s : LScored) :
    bcStep bl tol none s =
      if (!s.connected) = true then none
      else if (!(leadWithin (leadingByteIndex s.dist) bl tol)) = true then none
      else some s := rfl

theorem bcStep_some {bl : Option Nat} {tol : Nat} {b : LScored} (s : LScored) :
    ∃ r, bcStep bl tol (some b) s = some r := by
  rw [bcStep_some_eq]
  by_cases h1 : (!s.connected) = true
  · rw [if_pos h1]; exact ⟨b, rfl⟩
  · rw [if_neg h1]
    by_cases h2 : (!(leadWithin (leadingByteIndex s.dist) bl tol)) = true
    · rw [if_pos h2]; exact ⟨b, rfl⟩
    · rw [if_neg h2]
      by_cases h3 : betterByDist s.id s.dist b.id b.dist = true
      · rw [if_pos h3]; exact ⟨s, rfl⟩
      · rw [if_neg h3]
        by_cases h4 : equalBytes s.dist b.dist = true
        · rw [if_pos h4]
          by_cases h5 : b.score < s.score ∨ (s.score = b.score ∧ s.id < b.id)
          · rw [if_pos h5]; exact ⟨s, rfl⟩
          · rw [if_neg h5]; exact ⟨b, rfl⟩
        · rw [if_neg h4]; exact ⟨b, rfl⟩

theorem bcFold_acc_some : ∀ (l : List LScored) (bl : Option Nat) (tol : Nat) (b : LScored),
    ∃ r, bcFold bl tol (some b) l = some r := by
  intro l
  induction l with
  | nil => intro bl tol b; exact ⟨b, rfl⟩
  | cons s rest ih =>
      intro bl tol b
      show ∃ r, bcFold bl tol (bcStep bl tol (some b) s) rest = some r
      obtain ⟨r₀, hr₀⟩ := @bcStep_some bl tol b s
      rw [hr₀]
      exact ih bl tol r₀

theorem bcFold_some_of_ex : ∀ (l : List LScored) (bl : Option Nat) (tol : Nat)
    (acc : Option LScored),
    (∃ s ∈ l, s.connected = true ∧ leadWithin (leadingByteIndex s.dist) bl tol = true) →
    ∃ r, bcFold bl tol acc l = some r := by
  intro l
  induction l with
  | nil =>
      intro bl tol acc h
      obtain ⟨s, hs, -⟩ := h
      exact absurd hs (List.not_mem_nil s)
  | cons s rest ih =>
      intro bl tol acc h
      show ∃ r, bcFold bl tol (bcStep bl tol acc s) rest = some r
      obtain ⟨t, ht, htc, htl⟩ := h
      rcases List.mem_cons.mp ht with rfl | htl'
      · have hstep : ∃ b, bcStep bl tol acc t = some b := by
          cases acc with
          | none =>
              refine ⟨t, ?_⟩
              rw [bcStep_none_eq, if_neg (by simp [htc]), if_neg (by simp [htl])]
          | some b => exact bcStep_some t
        obtain ⟨b, hb⟩ := hstep
        rw [hb]
        exact bcFold_acc_some rest bl tol b
      · exact ih bl tol _ ⟨t, htl', htc, htl⟩

theorem bcStep_dist {bl : Option Nat} {tol : Nat} {acc : Option LScored} {s : LScored}
    {r : LScored} (h : bcStep bl tol acc s = some r) :
    (acc = some r) ∨ (r = s ∧ ∀ b, acc = some b → lexLess b.dist s.dist = false) := by
  cases acc with
  | none =>
      rw [bcStep_none_eq] at h
      by_cases h1 : (!s.connected) = true
      · rw [if_pos h1] at h; simp at h
      · rw [if_neg h1] at h
        by_cases h2 : (!(leadWithin (leadingByteIndex s.dist) bl tol)) = true
        · rw [if_pos h2] at h; simp at h
        · rw [if_neg h2] at h
          exact Or.inr ⟨(Option.some.inj h).symm, fun b hb => by simp at hb⟩
  | some b =>
      rw [bcStep_some_eq] at h
      by_cases h1 : (!s.connected) = true
      · rw [if_pos h1] at h; exact Or.inl h
      · rw [if_neg h1] at h
        by_cases h2 : (!(leadWithin (leadingByteIndex s.dist) bl tol)) = true
        · rw [if_pos h2] at h; exact Or.inl h
        · rw [if_neg h2] at h
          by_cases h3 : betterByDist s.id s.dist b.id b.dist = true
          · rw [if_pos h3] at h
            refine Or.inr ⟨(Option.some.inj h).symm, fun b' hb' => ?_⟩
            cases hb'
            exact betterByDist_false_not_lexLess (betterByDist_asymm h3)
          · rw [if_neg h3] at h
            by_cases h4 : equalBytes s.dist b.dist = true
            · rw [if_pos h4] at h
              have hde : s.dist = b.dist := by simpa [equalBytes] using h4
              by_cases h5 : b.score < s.score ∨ (s.score = b.score ∧ s.id < b.id)
              · rw [if_pos h5] at h
                refine Or.inr ⟨(Option.some.inj h).symm, fun b' hb' => ?_⟩
                cases hb'
                rw [hde]
                exact lexLess_irrefl b.dist
              · rw [if_neg h5] at h; exact Or.inl h
            · rw [if_neg h4] at h; exact Or.inl h

theorem bcFold_min : ∀ (l : List LScored) (bl : Option Nat) (tol : Nat)
    (acc : Option LScored) (r : LScored), bcFold bl tol acc l = some r →
    (∀ s ∈ l, s.connected = true → leadWithin (leadingByteIndex s.dist) bl tol = true →
      lexLess s.dist r.dist = false) ∧
    (∀ b, acc = some b → lexLess b.dist r.dist = false) := by
  intro l
  induction l with
  | nil =>
      intro bl tol acc r h
      refine ⟨fun s hs => absurd hs (List.not_mem_nil s), fun b hb => ?_⟩
      rw [hb] at h
      have hbr : b = r := by simpa [bcFold] using h
      rw [hbr]
      exact lexLess_irrefl r.dist
  | cons s rest ih =>
      intro bl tol acc r h
      have hstep : bcFold bl tol acc (s :: rest) = bcFold bl tol (bcStep bl tol acc s) rest := rfl
      rw [hstep] at h
      obtain ⟨hrest, hacc⟩ := ih _ _ _ _ h
      refine ⟨fun t ht htc htl => ?_, fun b hb => ?_⟩
      · rcases List.mem_cons.mp ht with rfl | htl'
        · have hs : ∃ b', bcStep bl tol acc t = some b' := by
            cases acc with
            | none =>
                refine ⟨t, ?_⟩
                rw [bcStep_none_eq, if_neg (by simp [htc]), if_neg (by simp [htl])]
            | some b => exact bcStep_some t
          obtain ⟨b', hb'⟩ := hs
          have hb'r : lexLess b'.dist r.dist = false := hacc _ hb'
          rcases bcStep_dist hb' with hkeep | ⟨hrs, -⟩
          · -- the head lost to the accumulator `b'`: extract the comparison
            cases acc with
            | none => simp at hkeep
            | some b =>
                have hbb' : b = b' := Option.some.inj hkeep
                subst hbb'
                rw [bcStep_some_eq, if_neg (by simp [htc]), if_neg (by simp [htl])] at hb'
                by_cases h3 : betterByDist t.id t.dist b.id b.dist = true
                · rw [if_pos h3] at hb'
                  have ht' : t = b := Option.some.inj hb'
                  rw [ht']; exact hb'r
                · have h3' : betterByDist t.id t.dist b.id b.dist = false := by simpa using h3
                  have h1 : lexLess t.dist b.dist = false := betterByDist_false_not_lexLess h3'
                  exact notLexLess_trans h1 hb'r
          · rw [← hrs]; exact hb'r
        · exact hrest t htl' htc htl
      · obtain ⟨b', hb'⟩ : ∃ b', bcStep bl tol acc s = some b' := by
          rw [hb]; exact bcStep_some s
        have hb'r : lexLess b'.dist r.dist = false := hacc _ hb'
        rcases bcStep_dist hb' with hkeep | ⟨hrs, hlt⟩
        · rw [hb] at hkeep
          have hbe : b = b' := Option.some.inj hkeep
          rw [hbe]; exact hb'r
        · have h1 : lexLess b.dist s.dist = false := hlt b hb
          rw [hrs] at hb'r
          exact notLexLess_trans h1 hb'r

theorem bcFold_mem : ∀ (l : List LScored) (bl : Option Nat) (tol : Nat)
    (acc : Option LScored) (r : LScored), bcFold bl tol acc l = some r →
    acc = some r ∨ (r ∈ l ∧ r.connected = true) := by
  intro l
  induction l with
  | nil =>
      intro bl tol acc r h
      exact Or.inl (by simpa [bcFold] using h)
  | cons s rest ih =>
      intro bl tol acc r h
      have hstep : bcFold bl tol acc (s :: rest) = bcFold bl tol (bcStep bl tol acc s) rest := rfl
      rw [hstep] at h
      rcases ih _ _ _ _ h with hacc | ⟨hmem, hconn⟩
      · by_cases h1 : (!s.connected) = true
        · cases acc with
          | none => rw [bcStep_none_eq, if_pos h1] at hacc; simp at hacc
          | some b => rw [bcStep_some_eq, if_pos h1] at hacc; exact Or.inl hacc
        · have hsc : s.connected = true := by simpa using h1
          by_cases h2 : (!(leadWithin (leadingByteIndex s.dist) bl tol)) = true
          · cases acc with
            | none => rw [bcStep_none_eq, if_neg h1, if_pos h2] at hacc; simp at hacc
            | some b => rw [bcStep_some_eq, if_neg h1, if_pos h2] at hacc; exact Or.inl hacc
          · cases acc with
            | none =>
                rw [bcStep_none_eq, if_neg h1, if_neg h2] at hacc
                have hsr : s = r := Option.some.inj hacc
                exact Or.inr ⟨by rw [← hsr]; exact List.mem_cons_self s rest, hsr ▸ hsc⟩
            | some b =>
                rw [bcStep_some_eq, if_neg h1, if_neg h2] at hacc
                by_cases h3 : betterByDist s.id s.dist b.id b.dist = true
                · rw [if_pos h3] at hacc
                  have hsr : s = r := Option.some.inj hacc
                  exact Or.inr ⟨by rw [← hsr]; exact List.mem_cons_self s rest, hsr ▸ hsc⟩
                · rw [if_neg h3] at hacc
                  by_cases h4 : equalBytes s.dist b.dist = true
                  · rw [if_pos h4] at hacc
                    by_cases h5 : b.score < s.score ∨ (s.score = b.score ∧ s.id < b.id)
                    · rw [if_pos h5] at hacc
                      have hsr : s = r := Option.some.inj hacc
                      exact Or.inr ⟨by rw [← hsr]; exact List.mem_cons_self s rest, hsr ▸ hsc⟩
                    · rw [if_neg h5] at hacc; exact Or.inl hacc
                  · rw [if_neg h4] at hacc; exact Or.inl hacc
      · exact Or.inr ⟨List.mem_cons_of_mem s hmem, hconn⟩

theorem bcFold_none_of_disconnected : ∀ (l : List LScored) (bl : Option Nat) (tol : Nat),
    (∀ s ∈ l, s.connected = false) → bcFold bl tol none l = none := by
  intro l
  induction l with
  | nil => intro bl tol h; rfl
  | cons s rest ih =>
      intro bl tol h
      have hstep : bcFold bl tol none (s :: rest) = bcFold bl tol (bcStep bl tol none s) rest := rfl
      rw [hstep]
      have hsc : s.connected = false := h s (List.mem_cons_self s rest)
      have hns : bcStep bl tol none s = none := by
        rw [bcStep_none_eq, if_pos (by simp [hsc])]
      rw [hns]
      exact ih bl tol (fun t ht => h t (List.mem_cons_of_mem s ht))

@[simp] theorem lscoreOf_id (t : Coord) (ic : String → Bool) (lq : String → ℚ)
    (pid : String) (e : PeerEntry) : (lscoreOf t ic lq pid e).id = pid := rfl

@[simp] theorem lscoreOf_dist (t : Coord) (ic : String → Bool) (lq : String → ℚ)
    (pid : String) (e : PeerEntry) :
    (lscoreOf t ic lq pid e).dist = xorDistance e.coord t := rfl

@[simp] theorem lscoreOf_connected (t : Coord) (ic : String → Bool) (lq : String → ℚ)
    (pid : String) (e : PeerEntry) : (lscoreOf t ic lq pid e).connected = ic pid := rfl

theorem bbFold_none_some_of_ne {l : List LScored} (h : l ≠ []) :
    ∃ r, bbFold none l = some r := by
  cases l with
  | nil => exact absurd rfl h
  | cons s rest =>
      show ∃ r, bbFold (bbStep none s) rest = some r
      have hb : bbStep none s = some (s.id, s.dist) := rfl
      rw [hb]
      exact bbFold_acc_some rest (s.id, s.dist)

/-- C4 (amended): the legacy tolerance filter `lead ≤ bestLead + tolerance`
is vacuous (every candidate's leading index is at most `bestByDist`'s), so
`chooseNextHopLegacy` returns: `none` when no candidate is in the store; a
connected candidate whose XOR distance is lexicographically minimal among
all connected candidates whenever one exists — regardless of how far
outside the claimed band it lies; and otherwise `bestByDist`, the
(distance, id)-minimal candidate. -/
theorem chooseNextHopLegacy_spec
    (store : DStore) (target : Coord) (candidates : List String)
    (isConn : String → Bool) (linkQ : String → ℚ) (tol : Nat) :
    ((∀ c ∈ candidates, getById store c = none) →
        chooseNextHopLegacy store target candidates isConn linkQ tol = none) ∧
    ((∃ c ∈ candidates, isConn c = true ∧ (getById store c).isSome = true) →
        ∃ r er, chooseNextHopLegacy store target candidates isConn linkQ tol = some r ∧
          r ∈ candidates ∧ isConn r = true ∧ getById store r = some er ∧
          ∀ c' ∈ candidates, isConn c' = true → ∀ e', getById store c' = some e' →
            lexLess (xorDistance e'.coord target) (xorDistance er.coord target) = false) ∧
    ((∀ c ∈ candidates, isConn c = false) →
        ∀ c₀ ∈ candidates, ∀ e₀, getById store c₀ = some e₀ →
        ∃ r er, chooseNextHopLegacy store target candidates isConn linkQ tol = some r ∧
          r ∈ candidates ∧ getById store r = some er ∧
          ∀ c' ∈ candidates, ∀ e', getById store c' = some e' →
            betterByDist c' (xorDistance e'.coord target) r (xorDistance er.coord target)
              = false) := by
  classical
  set f : String → Option LScored :=
    fun pid => (getById store pid).map (lscoreOf target isConn linkQ pid) with hf
  set scored : List LScored := candidates.filterMap f with hscored
  have hpick : chooseNextHopLegacy store target candidates isConn linkQ tol =
      legacyPick tol scored := rfl
  refine ⟨?_, ?_, ?_⟩
  · intro h
    have hsc : scored = [] := by
      rw [hscored]
      exact List.filterMap_eq_nil_iff.mpr (fun c hc => by rw [hf]; simp [h c hc])
    rw [hpick, hsc]
    rfl
  · rintro ⟨c, hc, hconn, hsome⟩
    obtain ⟨e, hce⟩ := Option.isSome_iff_exists.mp hsome
    have hs₀ : lscoreOf target isConn linkQ c e ∈ scored := by
      rw [hscored]
      exact List.mem_filterMap.mpr ⟨c, hc, by rw [hf]; simp [hce]⟩
    obtain ⟨best, hbest⟩ := bbFold_none_some_of_ne (List.ne_nil_of_mem hs₀)
    have hmin := bbFold_min scored none best hbest
    -- every scored candidate passes the tolerance filter
    have hpass : ∀ s ∈ scored,
        leadWithin (leadingByteIndex s.dist) (leadingByteIndex best.2) tol = true := by
      intro s hs
      exact leadWithin_of_not_lexLess
        (betterByDist_false_not_lexLess (hmin.1 s hs)) tol
    have hex : ∃ s ∈ scored, s.connected = true ∧
        leadWithin (leadingByteIndex s.dist) (leadingByteIndex best.2) tol = true := by
      refine ⟨lscoreOf target isConn linkQ c e, hs₀, by simp [hconn], hpass _ hs₀⟩
    obtain ⟨bc, hbc⟩ := bcFold_some_of_ex scored (leadingByteIndex best.2) tol none hex
    have hres : legacyPick tol scored = some bc.id := by
      unfold legacyPick
      rw [hbest]
      simp only [hbc]
    rcases bcFold_mem scored (leadingByteIndex best.2) tol none bc hbc with habs | ⟨hbcm, hbcc⟩
    · simp at habs
    · obtain ⟨cr, hcr, hfcr⟩ := List.mem_filterMap.mp (hscored ▸ hbcm)
      rw [hf] at hfcr
      obtain ⟨er, her, hbceq⟩ := Option.map_eq_some'.mp hfcr
      refine ⟨bc.id, er, by rw [hpick]; exact hres, ?_, ?_, ?_, ?_⟩
      · rw [← hbceq]; simpa using hcr
      · rw [← hbceq] at hbcc ⊢
        simp only [lscoreOf_id]
        simpa using hbcc
      · rw [← hbceq]; simpa using her
      · intro c' hc' hconn' e' he'
        have hs' : lscoreOf target isConn linkQ c' e' ∈ scored := by
          rw [hscored]
          exact List.mem_filterMap.mpr ⟨c', hc', by rw [hf]; simp [he']⟩
        have hlt := (bcFold_min scored (leadingByteIndex best.2) tol none bc hbc).1
          (lscoreOf target isConn linkQ c' e') hs' (by simp [hconn']) (hpass _ hs')
        have hd : bc.dist = xorDistance er.coord target := by rw [← hbceq]; simp
        simpa [hd] using hlt
  · intro hnone c₀ hc₀ e₀ hc₀e
    have hs₀ : lscoreOf target isConn linkQ c₀ e₀ ∈ scored := by
      rw [hscored]
      exact List.mem_filterMap.mpr ⟨c₀, hc₀, by rw [hf]; simp [hc₀e]⟩
    obtain ⟨best, hbest⟩ := bbFold_none_some_of_ne (List.ne_nil_of_mem hs₀)
    have hdisc : ∀ s ∈ scored, s.connected = false := by
      intro s hs
      obtain ⟨cs, hcs, hfcs⟩ := List.mem_filterMap.mp (hscored ▸ hs)
      rw [hf] at hfcs
      obtain ⟨es, hes, hseq⟩ := Option.map_eq_some'.mp hfcs
      rw [← hseq]
      simpa using hnone cs hcs
    have hbcn := bcFold_none_of_disconnected scored (leadingByteIndex best.2) tol hdisc
    have hres : legacyPick tol scored = some best.1 := by
      unfold legacyPick
      rw [hbest]
      simp only [hbcn]
    have hmin := bbFold_min scored none best hbest
    rcases bbFold_mem scored none best hbest with habs | ⟨s, hsm, hseq⟩
    · simp at habs
    · obtain ⟨cr, hcr, hfcr⟩ := List.mem_filterMap.mp (hscored ▸ hsm)
      rw [hf] at hfcr
      obtain ⟨er, her, hcreq⟩ := Option.map_eq_some'.mp hfcr
      have hb1 : best.1 = cr := by rw [← hseq, ← hcreq]; simp
      have hb2 : best.2 = xorDistance er.coord target := by rw [← hseq, ← hcreq]; simp
      refine ⟨best.1, er, by rw [hpick]; exact hres, by rw [hb1]; exact hcr,
        by rw [hb1]; exact her, ?_⟩
      intro c' hc' e' he'
      have hs' : lscoreOf target isConn linkQ c' e' ∈ scored := by
        rw [hscored]
        exact List.mem_filterMap.mpr ⟨c', hc', by rw [hf]; simp [he']⟩
      have h := hmin.1 (lscoreOf target isConn linkQ c' e') hs'
      simpa [hb2] using h

/-- The claim's legacy band test, written from the spec's words: a
candidate is considered when its leading non-zero byte index is
`≥ bestByDist`'s index minus `tolerance` (`none` plays `Infinity`).
Used only to compare against the implementation's actual filter. -/
def specLeadBand (lead best : Option Nat) (tol : Nat) : Bool :=
  match best, lead with
  | _, none => true
  | none, some _ => false
  | some bl, some l => bl - tol ≤ l

def c4Target : Coord := List.replicate 32 0

def c4Close : Coord := List.replicate 31 0 ++ [1]

def c4Far : Coord := 255 :: List.replicate 31 0

def c4Store : DStore := [freshEntry "close" c4Close, freshEntry "far" c4Far]

def c4IsConn : String → Bool := fun s => s == "far"

/-- C4 counterexample: the only connected candidate (`"far"`, leading
index 0) lies far outside the claimed tolerance band of the closest
candidate (`"close"`, leading index 31, band `≥ 30`), so the claim
requires the closest (disconnected) candidate to be returned; the
implementation returns the connected one, because its filter reads
`lead ≤ bestLead + tolerance`, which every candidate satisfies. -/
theorem chooseNextHopLegacy_ignores_band :
    chooseNextHopLegacy c4Store c4Target ["close", "far"] c4IsConn (fun _ => 1/2) 1
        = some "far" ∧
    betterByDist "close" (xorDistance c4Close c4Target) "far" (xorDistance c4Far c4Target)
        = true ∧
    c4IsConn "close" = false ∧ c4IsConn "far" = true ∧
    specLeadBand (leadingByteIndex (xorDistance c4Far c4Target))
        (leadingByteIndex (xorDistance c4Close c4Target)) 1 = false ∧
    ("far" : String) ≠ "close" := by
  refine ⟨?_, ?_, ?_, ?_, ?_, ?_⟩ <;> with_unfolding_all decide

theorem chooseNextHopLegacy_spec_witness :
    (∃ c ∈ ["close", "far"], c4IsConn c = true ∧ (getById c4Store c).isSome = true) ∧
    ∃ r er, chooseNextHopLegacy c4Store c4Target ["close", "far"] c4IsConn (fun _ => 1/2) 1
        = some r ∧
      r ∈ ["close", "far"] ∧ c4IsConn r = true ∧ getById c4Store r = some er ∧
      ∀ c' ∈ ["close", "far"], c4IsConn c' = true → ∀ e', getById c4Store c' = some e' →
        lexLess (xorDistance e'.coord c4Target) (xorDistance er.coord c4Target) = false :=
  ⟨⟨"far", by with_unfolding_all decide, by with_unfolding_all decide,
      by with_unfolding_all decide⟩,
   (chooseNextHopLegacy_spec c4Store c4Target ["close", "far"] c4IsConn (fun _ => 1/2) 1).2.1
     ⟨"far", by with_unfolding_all decide, by with_unfolding_all decide,
       by with_unfolding_all decide⟩⟩

/-! ## Leave protocol: `sanitizeReplacements` (`rpc/leave.ts`)

`registerLeave` replaces `msg.replacements` with
`sanitizeReplacements(msg.replacements)` before invoking the handler, so
this function is exactly the transformation between the wire-level list
and the list the leave handler sees.  `peerIdFromString` succeeding is
modelled by the abstract predicate `wellFormed`. -/

/-- `MAX_REPLACEMENTS` from `rpc/leave.ts`. -/
def MAX_REPLACEMENTS : Nat := 12

/-- `sanitizeReplacements` from `rpc/leave.ts`: keep the first 12 wire
entries, then drop the unparseable ones; `none` when absent, empty, or
nothing survives. -/
def sanitizeReplacements (wellFormed : String → Bool) :
    Option (List String) → Option (List String)
  | none => none
  | some ids =>
      if ids.isEmpty then none
      else
        let valid := (ids.take MAX_REPLACEMENTS).filter wellFormed
        if valid.isEmpty then none else some valid

/-- `sanitizeReplacements` on a present list, in plain `if` form. -/
theorem sanitizeReplacements_some_eq (wf : String → Bool) (ids : List String) :
    sanitizeReplacements wf (some ids) =
      if ids.isEmpty = true then none
      else if ((ids.take MAX_REPLACEMENTS).filter wf).isEmpty = true then none
      else some ((ids.take MAX_REPLACEMENTS).filter wf) := rfl

/-- C8 (amended): the list passed to the leave handler is obtained from
the wire-level list by truncating to 12 entries first and then dropping
unparseable ids: it equals `(wire.take 12).filter wellFormed`, has length
≤ 12, contains only well-formed ids, and contains every well-formed id
among the first 12 wire entries; when nothing survives the handler sees
no list. -/
theorem sanitizeReplacements_spec (wf : String → Bool) (ids : List String) :
    (∀ r, sanitizeReplacements wf (some ids) = some r →
      r = (ids.take MAX_REPLACEMENTS).filter wf ∧
      r.length ≤ 12 ∧
      (∀ x ∈ r, wf x = true) ∧
      (∀ x ∈ (ids.take MAX_REPLACEMENTS).filter wf, x ∈ r)) ∧
    (sanitizeReplacements wf (some ids) = none →
      (ids.take MAX_REPLACEMENTS).filter wf = []) := by
  constructor
  · intro r hr
    rw [sanitizeReplacements_some_eq] at hr
    by_cases h1 : ids.isEmpty = true
    · rw [if_pos h1] at hr; simp at hr
    · rw [if_neg h1] at hr
      by_cases h2 : ((ids.take MAX_REPLACEMENTS).filter wf).isEmpty = true
      · rw [if_pos h2] at hr; simp at hr
      · rw [if_neg h2] at hr
        have hre : (ids.take MAX_REPLACEMENTS).filter wf = r := Option.some.inj hr
        subst hre
        refine ⟨rfl, ?_, ?_, fun x hx => hx⟩
        · calc ((ids.take MAX_REPLACEMENTS).filter wf).length
              ≤ (ids.take MAX_REPLACEMENTS).length := List.length_filter_le _ _
            _ ≤ MAX_REPLACEMENTS := by
                rw [List.length_take]
                exact min_le_left _ _
        · intro x hx
          exact List.of_mem_filter hx
  · intro hn
    rw [sanitizeReplacements_some_eq] at hn
    by_cases h1 : ids.isEmpty = true
    · have : ids = [] := List.isEmpty_iff.mp h1
      rw [this]
      rfl
    · rw [if_neg h1] at hn
      by_cases h2 : ((ids.take MAX_REPLACEMENTS).filter wf).isEmpty = true
      · exact List.isEmpty_iff.mp h2
      · rw [if_neg h2] at hn
        simp at hn

def c8wf : String → Bool := fun s => !(s == "bad")

def c8ids : List String :=
  ["bad", "g01", "g02", "g03", "g04", "g05", "g06", "g07", "g08", "g09", "g10", "g11", "g12"]

/-- C8 counterexample: a 13-entry wire list whose first entry is
unparseable.  The claim requires the handler's list to contain every
well-formed wire id up to the cap of 12 — here all of `g01 … g12` — but
the code truncates to 12 entries before filtering, so `g12` is lost even
though only 11 well-formed ids survive. -/
theorem sanitizeReplacements_not_filter_first :
    sanitizeReplacements c8wf (some c8ids) =
      some ["g01", "g02", "g03", "g04", "g05", "g06", "g07", "g08", "g09", "g10", "g11"] ∧
    "g12" ∈ (c8ids.filter c8wf).take 12 ∧
    ∀ r, sanitizeReplacements c8wf (some c8ids) = some r → "g12" ∉ r := by
  refine ⟨by with_unfolding_all decide, by with_unfolding_all decide, ?_⟩
  intro r hr
  have heq : r = ["g01", "g02", "g03", "g04", "g05", "g06", "g07", "g08", "g09", "g10", "g11"] := by
    have h1 : sanitizeReplacements c8wf (some c8ids) =
        some ["g01", "g02", "g03", "g04", "g05", "g06", "g07", "g08", "g09", "g10", "g11"] := by
      with_unfolding_all decide
    rw [h1] at hr
    exact (Option.some.inj hr).symm
  rw [heq]
  with_unfolding_all decide

theorem sanitizeReplacements_spec_witness :
    sanitizeReplacements c8wf (some ["bad", "g01"]) = some ["g01"] ∧
    ["g01"] = ((["bad", "g01"] : List String).take MAX_REPLACEMENTS).filter c8wf ∧
    (["g01"] : List String).length ≤ 12 ∧
    (∀ x ∈ (["g01"] : List String), c8wf x = true) ∧
    (∀ x ∈ ((["bad", "g01"] : List String).take MAX_REPLACEMENTS).filter c8wf,
      x ∈ (["g01"] : List String)) := by
  have h := (sanitizeReplacements_spec c8wf ["bad", "g01"]).1 ["g01"]
    (by with_unfolding_all decide)
  exact ⟨by with_unfolding_all decide, h.1, h.2.1, h.2.2.1, h.2.2.2⟩

/-! ## Network-size observations and partition detection
(`service/fret-service.ts`, `reportNetworkSize` / `getNetworkSizeEstimate`
/ `getNetworkChurn` / `detectPartition`)

The service's own estimate (`estimateSizeAndConfidence`, whose source is
not provided) enters `getNetworkSizeEstimate` as one extra observation;
it is carried here as the pair `(fretEst, fretConf)`.  The recency decay
`Math.exp(−age/(window/3))` is a transcendental function of the age; it
is abstracted as the parameter `recency : ℤ → ℚ`, which multiplies each
observation's confidence.  Concrete theorems below instantiate it with a
function that agrees with the exponential wherever the weight is not
multiplied by a zero confidence (namely `recency 0 = 1`). -/

/-- One entry of `networkObservations`. -/
structure NetObs where
  estimate : ℚ
  confidence : ℚ
  timestamp : ℤ
deriving DecidableEq, Repr

/-- `observationWindowMs` (5 minutes). -/
def observationWindowMs : ℤ := 300000

/-- `getNetworkSizeEstimate` from `fret-service.ts`: the FRET estimate is
prepended as an observation at the current time, then a recency- and
confidence-weighted mean is rounded; returns
`(size_estimate, confidence, sources)`. -/
def getNetworkSizeEstimate (recency : ℤ → ℚ) (fretEst fretConf : ℚ)
    (obs : List NetObs) (now : ℤ) : ℤ × ℚ × ℕ :=
  let all : List NetObs :=
    { estimate := fretEst, confidence := fretConf, timestamp := now } :: obs
  if all.isEmpty then (0, 0, 0)
  else
    let totalWeight := (all.map (fun o => recency (now - o.timestamp) * o.confidence)).sum
    let weightedSum :=
      (all.map (fun o => o.estimate * (recency (now - o.timestamp) * o.confidence))).sum
    let confidenceSum :=
      (all.map (fun o => o.confidence * recency (now - o.timestamp))).sum
    if totalWeight = 0 then (0, 0, 0)
    else (jsRound (weightedSum / totalWeight), min 1 (confidenceSum / all.length), all.length)

/-- `getNetworkChurn` from `fret-service.ts`: slope between the mean of
the newer and older halves of the observation window, in peers per
minute. -/
def getNetworkChurn (obs : List NetObs) (now : ℤ) : ℚ :=
  if obs.length < 2 then 0
  else
    let cutoff : ℤ := now - 150000
    let recent := obs.filter (fun o => cutoff < o.timestamp)
    let older := obs.filter (fun o => o.timestamp ≤ cutoff)
    if recent.isEmpty || older.isEmpty then 0
    else
      let recentAvg := (recent.map (fun o => o.estimate)).sum / recent.length
      let olderAvg := (older.map (fun o => o.estimate)).sum / older.length
      ((recentAvg - olderAvg) / 150000) * 60000

/-- Observations older than 30 seconds, as filtered by `detectPartition`. -/
def oldObsOf (obs : List NetObs) (now : ℤ) : List NetObs :=
  obs.filter (fun o => o.timestamp < now - 30000)

/-- `oldObs.slice(-5)` averaged over `Math.min(5, oldObs.length)`. -/
def oldAvgOf (obs : List NetObs) (now : ℤ) : ℚ :=
  let oldObs := oldObsOf obs now
  ((oldObs.drop (oldObs.length - 5)).map (fun o => o.estimate)).sum /
    ((min 5 oldObs.length : ℕ) : ℚ)

/-- JS `a / b < 0.5` on exact rationals, including the `b = 0` cases
(`±Infinity`, `NaN`) produced by float division. -/
def jsDivLtHalf (a b : ℚ) : Bool :=
  if 0 < b then decide (2 * a < b)
  else if b < 0 then decide (b < 2 * a)
  else decide (a < 0)

/-- `detectPartition` from `fret-service.ts`. -/
def detectPartition (recency : ℤ → ℚ) (fretEst fretConf : ℚ)
    (obs : List NetObs) (now : ℤ) : Bool :=
  if obs.length < 10 then false
  else if (getNetworkSizeEstimate recency fretEst fretConf obs now).2.1 < 3/10 then false
  else if (oldObsOf obs now).length < 3 then false
  else if jsDivLtHalf ((getNetworkSizeEstimate recency fretEst fretConf obs now).1 : ℚ)
      (oldAvgOf obs now) then true
  else decide (|getNetworkChurn obs now| >
      ((getNetworkSizeEstimate recency fretEst fretConf obs now).1 : ℚ) * (1/10))

/-- The claim's partition formula, written from the spec's words
(§4.4): with at least 10 stored observations, true exactly when (the
current weighted estimate has dropped below half of the mean of the last
five observations older than 30 s and the aggregate confidence is
≥ 0.3) or the absolute churn exceeds 10 % of the current estimate per
minute.  Used only to compare against the implementation. -/
def specDetectPartition (recency : ℤ → ℚ) (fretEst fretConf : ℚ)
    (obs : List NetObs) (now : ℤ) : Bool :=
  if obs.length < 10 then false
  else
    (decide (2 * ((getNetworkSizeEstimate recency fretEst fretConf obs now).1 : ℚ) <
        oldAvgOf obs now) &&
     decide (3/10 ≤ (getNetworkSizeEstimate recency fretEst fretConf obs now).2.1))
    || decide (|getNetworkChurn obs now| >
        ((getNetworkSizeEstimate recency fretEst fretConf obs now).1 : ℚ) * (1/10))

/-- C5 (amended): `detectPartition` returns false when fewer than 10
observations are stored, or when the aggregate confidence is < 0.3, or
when fewer than 3 observations are older than 30 s; otherwise it returns
true exactly when the current estimate dropped below half the mean of
the last five older-than-30 s observations or the absolute churn exceeds
10 % of the current estimate per minute.  In particular the churn test
is also gated behind the confidence and old-observation thresholds,
which the original claim did not require. -/
theorem detectPartition_spec (recency : ℤ → ℚ) (fretEst fretConf : ℚ)
    (obs : List NetObs) (now : ℤ) (hpos : 0 < oldAvgOf obs now) :
    detectPartition recency fretEst fretConf obs now = true ↔
      (10 ≤ obs.length ∧
       3/10 ≤ (getNetworkSizeEstimate recency fretEst fretConf obs now).2.1 ∧
       3 ≤ (oldObsOf obs now).length ∧
       (2 * ((getNetworkSizeEstimate recency fretEst fretConf obs now).1 : ℚ) <
          oldAvgOf obs now ∨
        |getNetworkChurn obs now| >
          ((getNetworkSizeEstimate recency fretEst fretConf obs now).1 : ℚ) * (1/10))) := by
  unfold detectPartition
  by_cases h10 : obs.length < 10
  · rw [if_pos h10]
    simp only [Bool.false_eq_true, false_iff]
    intro h
    omega
  · rw [if_neg h10]
    by_cases hconf : (getNetworkSizeEstimate recency fretEst fretConf obs now).2.1 < 3/10
    · rw [if_pos hconf]
      simp only [Bool.false_eq_true, false_iff]
      rintro ⟨-, hc, -, -⟩
      exact absurd hconf (not_lt.mpr hc)
    · rw [if_neg hconf]
      by_cases hold : (oldObsOf obs now).length < 3
      · rw [if_pos hold]
        simp only [Bool.false_eq_true, false_iff]
        rintro ⟨-, -, ho, -⟩
        omega
      · rw [if_neg hold]
        have hdrop : jsDivLtHalf
            ((getNetworkSizeEstimate recency fretEst fretConf obs now).1 : ℚ)
            (oldAvgOf obs now) =
            decide (2 * ((getNetworkSizeEstimate recency fretEst fretConf obs now).1 : ℚ) <
              oldAvgOf obs now) := by
          unfold jsDivLtHalf
          rw [if_pos hpos]
        rw [hdrop]
        simp only [decide_eq_true_eq]
        by_cases hd : 2 * ((getNetworkSizeEstimate recency fretEst fretConf obs now).1 : ℚ) <
            oldAvgOf obs now
        · rw [if_pos hd]
          simp only [true_iff]
          exact ⟨by omega, not_lt.mp hconf, by omega, Or.inl hd⟩
        · rw [if_neg hd]
          simp only [decide_eq_true_eq]
          constructor
          · intro hch
            exact ⟨by omega, not_lt.mp hconf, by omega, Or.inr hch⟩
          · rintro ⟨-, -, -, (h | h)⟩
            · exact absurd h hd
            · exact h

def c5Recency : ℤ → ℚ := fun _ => 1

def c5Obs : List NetObs :=
  List.replicate 6 { estimate := 1024, confidence := 0, timestamp := 800000 } ++
  List.replicate 4 { estimate := 8, confidence := 1/4, timestamp := 1000000 }

/-- C5 counterexample: ten observations whose churn (≈ 406 peers/minute)
massively exceeds 10 % of the current estimate (8), so the claim's
formula fires, but the aggregate confidence is 5/44 < 0.3 and the code
returns false: the confidence gate also covers the churn branch.  All
weights here are either at age 0 (`exp(0) = 1`) or multiplied by a zero
confidence, so the abstracted recency function is exact. -/
theorem detectPartition_counterexample :
    detectPartition c5Recency 8 (1/4) c5Obs 1000000 = false ∧
    specDetectPartition c5Recency 8 (1/4) c5Obs 1000000 = true ∧
    10 ≤ c5Obs.length := by
  refine ⟨?_, ?_, ?_⟩ <;> with_unfolding_all decide

def c5wObs : List NetObs :=
  List.replicate 6 { estimate := 1024, confidence := 0, timestamp := 800000 } ++
  List.replicate 4 { estimate := 8, confidence := 1, timestamp := 1000000 }

theorem detectPartition_spec_witness :
    0 < oldAvgOf c5wObs 1000000 ∧
    detectPartition c5Recency 8 1 c5wObs 1000000 = true := by
  have hpos : 0 < oldAvgOf c5wObs 1000000 := by with_unfolding_all decide
  refine ⟨hpos, ?_⟩
  refine (detectPartition_spec c5Recency 8 1 c5wObs 1000000 hpos).mpr ?_
  refine ⟨by with_unfolding_all decide, by with_unfolding_all decide,
    by with_unfolding_all decide, Or.inl (by with_unfolding_all decide)⟩

/-! ## Capacity enforcement (`fret-service.ts`, `enforceCapacity`) -/

/-- Ascending relevance, the comparator of `entries.sort((a,b) =>
a.relevance - b.relevance)` (stable). -/
def relLe (a b : PeerEntry) : Prop :=
  (decide (a.relevance ≤ b.relevance)) = true

instance : DecidableRel relLe := fun _ _ =>
  inferInstanceAs (Decidable (_ = true))

instance : IsTotal PeerEntry relLe :=
  ⟨fun a b => by
    rcases le_total a.relevance b.relevance with h | h
    · exact Or.inl (by simpa [relLe] using h)
    · exact Or.inr (by simpa [relLe] using h)⟩

instance : IsTrans PeerEntry relLe :=
  ⟨fun a b c hab hbc => by
    have h1 : a.relevance ≤ b.relevance := by simpa [relLe] using hab
    have h2 : b.relevance ≤ c.relevance := by simpa [relLe] using hbc
    simpa [relLe] using le_trans h1 h2⟩

/-- The eviction loop of `enforceCapacity`: walk the relevance-sorted
entries, removing non-protected ids while the store is over capacity. -/
def evictLoop (cap : Nat) (prot : List String) : List PeerEntry → DStore → DStore
  | [], st => st
  | e :: rest, st =>
      if st.length ≤ cap then st
      else if e.id ∈ prot then evictLoop cap prot rest st
      else evictLoop cap prot rest (removeId st e.id)

/-- `enforceCapacity` from `fret-service.ts`: protect the ids around the
cached self coordinate and evict lowest-relevance non-protected entries
until the store fits. -/
def enforceCapacity (capacity m : Nat) (selfCoordOpt : Option Coord) (st : DStore) : DStore :=
  let cap := max 1 capacity
  if st.length ≤ cap then st
  else
    match selfCoordOpt with
    | none => st
    | some selfC =>
        evictLoop cap (protectedIdsAround st selfC (max 2 m))
          (List.insertionSort relLe st) st

theorem evictLoop_sublist (cap : Nat) (prot : List String) :
    ∀ (sorted : List PeerEntry) (st : DStore), (evictLoop cap prot sorted st).Sublist st := by
  intro sorted
  induction sorted with
  | nil => intro st; exact List.Sublist.refl st
  | cons e rest ih =>
      intro st
      show (if st.length ≤ cap then st
            else if e.id ∈ prot then evictLoop cap prot rest st
            else evictLoop cap prot rest (removeId st e.id)).Sublist st
      by_cases h1 : st.length ≤ cap
      · rw [if_pos h1]
      · rw [if_neg h1]
        by_cases h2 : e.id ∈ prot
        · rw [if_pos h2]; exact ih st
        · rw [if_neg h2]
          exact (ih (removeId st e.id)).trans (List.filter_sublist st)

theorem evictLoop_protected (cap : Nat) (prot : List String) :
    ∀ (sorted : List PeerEntry) (st : DStore) (e : PeerEntry),
      e ∈ st → e.id ∈ prot → e ∈ evictLoop cap prot sorted st := by
  intro sorted
  induction sorted with
  | nil => intro st e he _; exact he
  | cons s rest ih =>
      intro st e he hp
      show e ∈ (if st.length ≤ cap then st
            else if s.id ∈ prot then evictLoop cap prot rest st
            else evictLoop cap prot rest (removeId st s.id))
      by_cases h1 : st.length ≤ cap
      · rw [if_pos h1]; exact he
      · rw [if_neg h1]
        by_cases h2 : s.id ∈ prot
        · rw [if_pos h2]; exact ih st e he hp
        · rw [if_neg h2]
          refine ih _ e ?_ hp
          refine List.mem_filter.mpr ⟨he, ?_⟩
          simp only [decide_eq_true_eq]
          intro hid
          exact h2 (hid ▸ hp)

theorem evictLoop_cap (cap : Nat) (prot : List String) :
    ∀ (sorted : List PeerEntry) (st : DStore),
      (∀ e ∈ st, e.id ∉ prot → ∃ s ∈ sorted, s.id = e.id) →
      (evictLoop cap prot sorted st).length ≤ cap ∨
        ∀ e ∈ evictLoop cap prot sorted st, e.id ∈ prot := by
  intro sorted
  induction sorted with
  | nil =>
      intro st hcov
      refine Or.inr ?_
      intro e he
      by_contra hep
      obtain ⟨s, hs, -⟩ := hcov e he hep
      exact absurd hs (List.not_mem_nil s)
  | cons s rest ih =>
      intro st hcov
      show (if st.length ≤ cap then st
            else if s.id ∈ prot then evictLoop cap prot rest st
            else evictLoop cap prot rest (removeId st s.id)).length ≤ cap ∨
        ∀ e ∈ (if st.length ≤ cap then st
            else if s.id ∈ prot then evictLoop cap prot rest st
            else evictLoop cap prot rest (removeId st s.id)), e.id ∈ prot
      by_cases h1 : st.length ≤ cap
      · rw [if_pos h1]; exact Or.inl h1
      · rw [if_neg h1]
        by_cases h2 : s.id ∈ prot
        · rw [if_pos h2]
          refine ih st ?_
          intro e he hep
          obtain ⟨t, ht, hte⟩ := hcov e he hep
          rcases List.mem_cons.mp ht with rfl | htl
          · exact absurd (hte ▸ h2) hep
          · exact ⟨t, htl, hte⟩
        · rw [if_neg h2]
          refine ih (removeId st s.id) ?_
          intro e he hep
          have hest : e ∈ st := List.mem_of_mem_filter he
          have hene : e.id ≠ s.id := by
            have := (List.mem_filter.mp he).2
            simpa using this
          obtain ⟨t, ht, hte⟩ := hcov e hest hep
          rcases List.mem_cons.mp ht with rfl | htl
          · exact absurd hte.symm hene
          · exact ⟨t, htl, hte⟩

theorem evictLoop_relevance (cap : Nat) (prot : List String) :
    ∀ (sorted : List PeerEntry) (st : DStore),
      List.Pairwise relLe sorted →
      (∀ s ∈ sorted, s ∈ st) →
      (st.map (fun e => e.id)).Nodup →
      ((sorted.map (fun e => e.id)).Nodup) →
      (∀ e ∈ st, e.id ∉ prot → ∃ s ∈ sorted, s.id = e.id) →
      ∀ e ∈ st, e ∉ evictLoop cap prot sorted st →
      ∀ f ∈ evictLoop cap prot sorted st, f.id ∉ prot →
      e.relevance ≤ f.relevance := by
  intro sorted
  induction sorted with
  | nil =>
      intro st _ _ _ _ _ e he hne f hf _
      exact absurd he hne
  | cons s rest ih =>
      intro st hpw hsub hnd hsnd hcov e he hne f hf hfp
      rw [show evictLoop cap prot (s :: rest) st =
            (if st.length ≤ cap then st
             else if s.id ∈ prot then evictLoop cap prot rest st
             else evictLoop cap prot rest (removeId st s.id)) from rfl] at hne hf
      by_cases h1 : st.length ≤ cap
      · rw [if_pos h1] at hne hf
        exact absurd he hne
      · rw [if_neg h1] at hne hf
        by_cases h2 : s.id ∈ prot
        · rw [if_pos h2] at hne hf
          refine ih st hpw.of_cons (fun t ht => hsub t (List.mem_cons_of_mem s ht)) hnd
            (List.Nodup.of_cons hsnd) ?_ e he hne f hf hfp
          intro t ht htp
          obtain ⟨u, hu, hue⟩ := hcov t ht htp
          rcases List.mem_cons.mp hu with rfl | hul
          · exact absurd (hue ▸ h2) htp
          · exact ⟨u, hul, hue⟩
        · rw [if_neg h2] at hne hf
          -- invariants for the filtered store
          have hsmem : s ∈ st := hsub s (List.mem_cons_self s rest)
          have hrestsub : ∀ t ∈ rest, t ∈ removeId st s.id := by
            intro t ht
            have htst : t ∈ st := hsub t (List.mem_cons_of_mem s ht)
            refine List.mem_filter.mpr ⟨htst, ?_⟩
            simp only [decide_eq_true_eq]
            intro hid
            -- two members of `sorted` with the same id: contradicts id-nodup
            have : s.id ∈ rest.map (fun e => e.id) := by
              rw [← hid]
              exact List.mem_map_of_mem (fun e => e.id) ht
            exact (List.nodup_cons.mp hsnd).1 this
          have hnd' : ((removeId st s.id).map (fun e => e.id)).Nodup :=
            List.Nodup.sublist (List.Sublist.map _ (List.filter_sublist st)) hnd
          have hcov' : ∀ t ∈ removeId st s.id, t.id ∉ prot → ∃ u ∈ rest, u.id = t.id := by
            intro t ht htp
            have htst : t ∈ st := List.mem_of_mem_filter ht
            have htne : t.id ≠ s.id := by
              have := (List.mem_filter.mp ht).2
              simpa using this
            obtain ⟨u, hu, hue⟩ := hcov t htst htp
            rcases List.mem_cons.mp hu with rfl | hul
            · exact absurd hue.symm htne
            · exact ⟨u, hul, hue⟩
          by_cases hest : e ∈ removeId st s.id
          · exact ih (removeId st s.id) hpw.of_cons hrestsub hnd'
              (List.Nodup.of_cons hsnd) hcov' e hest hne f hf hfp
          · -- e was removed right now: by id-uniqueness e = s
            have heid : e.id = s.id := by
              by_contra hid
              exact hest (List.mem_filter.mpr ⟨he, by simpa using hid⟩)
            have hes : e = s := by
              have hs1 : e.id ∈ st.map (fun e => e.id) := List.mem_map_of_mem _ he
              have := List.inj_on_of_nodup_map hnd he hsmem heid
              exact this
            subst hes
            -- f survives, is non-protected, hence appears in `rest`;
            -- sortedness gives the relevance bound
            have hfmem : f ∈ removeId st e.id :=
              (evictLoop_sublist cap prot rest (removeId st e.id)).mem hf
            obtain ⟨u, hu, hue⟩ := hcov' f hfmem hfp
            have huf : u = f := by
              have hu' : u ∈ removeId st e.id := hrestsub u hu
              exact List.inj_on_of_nodup_map hnd' hu' hfmem hue
            have hrel : relLe e f := by
              have := List.rel_of_pairwise_cons hpw hu
              rwa [huf] at this
            simpa [relLe] using hrel

/-- Ids returned by the spec-modelled walks always belong to store
entries. -/
theorem mem_of_rightWalk {st : DStore} {c : Coord} {pid : String}
    (h : pid ∈ rightWalk st c) : ∃ e ∈ st, e.id = pid := by
  unfold rightWalk at h
  obtain ⟨e, he, heid⟩ := List.mem_map.mp h
  rcases List.mem_append.mp he with h2 | h2
  · exact ⟨e, List.mem_of_mem_filter ((List.mem_insertionSort coordIdLe).mp h2), heid⟩
  · exact ⟨e, List.mem_of_mem_filter ((List.mem_insertionSort coordIdLe).mp h2), heid⟩

theorem mem_of_leftWalk {st : DStore} {c : Coord} {pid : String}
    (h : pid ∈ leftWalk st c) : ∃ e ∈ st, e.id = pid := by
  unfold leftWalk at h
  obtain ⟨e, he, heid⟩ := List.mem_map.mp h
  rcases List.mem_append.mp he with h2 | h2
  · exact ⟨e, List.mem_of_mem_filter ((List.mem_insertionSort coordIdGe).mp h2), heid⟩
  · exact ⟨e, List.mem_of_mem_filter ((List.mem_insertionSort coordIdGe).mp h2), heid⟩

theorem mem_of_neighborsRight {st : DStore} {c : Coord} {k : Nat} {pid : String}
    (h : pid ∈ neighborsRight st c k) : ∃ e ∈ st, e.id = pid :=
  mem_of_rightWalk (List.mem_of_mem_take h)

theorem mem_of_neighborsLeft {st : DStore} {c : Coord} {k : Nat} {pid : String}
    (h : pid ∈ neighborsLeft st c k) : ∃ e ∈ st, e.id = pid :=
  mem_of_leftWalk (List.mem_of_mem_take h)

theorem mem_of_protectedIdsAround {st : DStore} {c : Coord} {m : Nat} {pid : String}
    (h : pid ∈ protectedIdsAround st c m) : ∃ e ∈ st, e.id = pid := by
  rcases List.mem_append.mp h with h1 | h1
  · exact mem_of_neighborsRight h1
  · exact mem_of_neighborsLeft h1

theorem upsert_nodup {st : DStore} (pid : String) (c : Coord)
    (h : (st.map (fun e => e.id)).Nodup) :
    ((upsert st pid c).map (fun e => e.id)).Nodup := by
  unfold upsert
  by_cases hs : (getById st pid).isSome = true
  · rw [if_pos hs]
    have hmap : (st.map (fun e => if e.id = pid then { e with coord := c } else e)).map
        (fun e => e.id) = st.map (fun e => e.id) := by
      rw [List.map_map]
      refine List.map_congr_left ?_
      intro e _
      by_cases hid : e.id = pid
      · simp [hid]
      · simp [hid]
    rw [hmap]
    exact h
  · rw [if_neg hs]
    rw [List.map_append]
    refine List.Nodup.append h (by simp) ?_
    intro x hx hx2
    simp only [List.map_cons, List.map_nil, List.mem_singleton, freshEntry] at hx2
    subst hx2
    obtain ⟨e, he, heid⟩ := List.mem_map.mp hx
    have : getById st x = none := by
      cases hg : getById st x with
      | none => rfl
      | some v => rw [hg] at hs; simp at hs
    have hfind := List.find?_eq_none.mp this e he
    simp [heid] at hfind

theorem upserts_nodup (ops : List (String × Coord)) :
    ∀ (st : DStore), (st.map (fun e => e.id)).Nodup →
    (((ops.foldl (fun s p => upsert s p.1 p.2) st).map (fun e => e.id))).Nodup := by
  induction ops with
  | nil => intro st h; exact h
  | cons p rest ih =>
      intro st h
      exact ih (upsert st p.1 p.2) (upsert_nodup p.1 p.2 h)

/-- The store after a sequence of `upsert` operations. -/
def afterUpserts (st0 : DStore) (ops : List (String × Coord)) : DStore :=
  ops.foldl (fun s p => upsert s p.1 p.2) st0

/-- C6: after any sequence of `upsert` operations followed by capacity
enforcement, every member of `protectedIdsAround(self, max(2, m))` is
still present; enforcement removes only non-protected entries, taken
from lowest relevance upward, and stops once `size ≤ capacity` (when the
protected entries alone exceed capacity, everything that remains is
protected). -/
theorem enforceCapacity_spec (st0 : DStore) (ops : List (String × Coord))
    (capacity m : Nat) (selfC : Coord)
    (hnd0 : (st0.map (fun e => e.id)).Nodup) :
    (∀ pid ∈ protectedIdsAround (afterUpserts st0 ops) selfC (max 2 m),
      ∃ e ∈ enforceCapacity capacity m (some selfC) (afterUpserts st0 ops), e.id = pid) ∧
    (∀ e ∈ afterUpserts st0 ops,
      e ∉ enforceCapacity capacity m (some selfC) (afterUpserts st0 ops) →
      e.id ∉ protectedIdsAround (afterUpserts st0 ops) selfC (max 2 m)) ∧
    ((enforceCapacity capacity m (some selfC) (afterUpserts st0 ops)).length ≤ max 1 capacity ∨
      ∀ e ∈ enforceCapacity capacity m (some selfC) (afterUpserts st0 ops),
        e.id ∈ protectedIdsAround (afterUpserts st0 ops) selfC (max 2 m)) ∧
    (∀ e ∈ afterUpserts st0 ops,
      e ∉ enforceCapacity capacity m (some selfC) (afterUpserts st0 ops) →
      ∀ f ∈ enforceCapacity capacity m (some selfC) (afterUpserts st0 ops),
        f.id ∉ protectedIdsAround (afterUpserts st0 ops) selfC (max 2 m) →
        e.relevance ≤ f.relevance) := by
  classical
  set st1 : DStore := afterUpserts st0 ops with hst1
  have hnd1 : (st1.map (fun e => e.id)).Nodup := upserts_nodup ops st0 hnd0
  set prot : List String := protectedIdsAround st1 selfC (max 2 m) with hprot
  have hec : enforceCapacity capacity m (some selfC) st1 =
      if st1.length ≤ max 1 capacity then st1
      else evictLoop (max 1 capacity) prot (List.insertionSort relLe st1) st1 := rfl
  by_cases hfit : st1.length ≤ max 1 capacity
  · rw [hec, if_pos hfit]
    refine ⟨?_, ?_, Or.inl hfit, ?_⟩
    · intro pid hpid
      obtain ⟨e, he, heid⟩ := mem_of_protectedIdsAround hpid
      exact ⟨e, he, heid⟩
    · intro e he hne
      exact absurd he hne
    · intro e he hne
      exact absurd he hne
  · rw [hec, if_neg hfit]
    have hperm := List.perm_insertionSort relLe st1
    have hcov : ∀ e ∈ st1, e.id ∉ prot →
        ∃ s ∈ List.insertionSort relLe st1, s.id = e.id := by
      intro e he _
      exact ⟨e, (List.mem_insertionSort relLe).mpr he, rfl⟩
    refine ⟨?_, ?_, ?_, ?_⟩
    · intro pid hpid
      obtain ⟨e, he, heid⟩ := mem_of_protectedIdsAround hpid
      refine ⟨e, ?_, heid⟩
      exact evictLoop_protected _ _ _ _ e he (heid ▸ hpid)
    · intro e he hne
      intro hp
      exact hne (evictLoop_protected _ _ _ _ e he hp)
    · exact evictLoop_cap _ _ _ _ hcov
    · intro e he hne f hf hfp
      refine evictLoop_relevance (max 1 capacity) prot (List.insertionSort relLe st1) st1
        (List.sorted_insertionSort relLe st1) ?_ hnd1 ?_ hcov e he hne f hf hfp
      · intro s hs
        exact (List.mem_insertionSort relLe).mp hs
      · exact ((hperm.map (fun e => e.id)).nodup_iff).mpr hnd1

def c6Ops : List (String × Coord) :=
  [("a", [10]), ("b", [20]), ("c", [30]), ("d", [40]), ("e", [50]), ("f", [60])]

theorem enforceCapacity_spec_witness :
    (([] : DStore).map (fun e => e.id)).Nodup ∧
    ((∀ pid ∈ protectedIdsAround (afterUpserts [] c6Ops) [10] (max 2 0),
      ∃ e ∈ enforceCapacity 1 0 (some [10]) (afterUpserts [] c6Ops), e.id = pid) ∧
    (∀ e ∈ afterUpserts [] c6Ops,
      e ∉ enforceCapacity 1 0 (some [10]) (afterUpserts [] c6Ops) →
      e.id ∉ protectedIdsAround (afterUpserts [] c6Ops) [10] (max 2 0)) ∧
    ((enforceCapacity 1 0 (some [10]) (afterUpserts [] c6Ops)).length ≤ max 1 1 ∨
      ∀ e ∈ enforceCapacity 1 0 (some [10]) (afterUpserts [] c6Ops),
        e.id ∈ protectedIdsAround (afterUpserts [] c6Ops) [10] (max 2 0)) ∧
    (∀ e ∈ afterUpserts [] c6Ops,
      e ∉ enforceCapacity 1 0 (some [10]) (afterUpserts [] c6Ops) →
      ∀ f ∈ enforceCapacity 1 0 (some [10]) (afterUpserts [] c6Ops),
        f.id ∉ protectedIdsAround (afterUpserts [] c6Ops) [10] (max 2 0) →
        e.relevance ≤ f.relevance)) :=
  ⟨by simp, enforceCapacity_spec [] c6Ops 1 0 [10] (by simp)⟩

/-! ## Cohort assembly (`fret-service.ts`, `assembleCohort`) -/

/-- First-occurrence deduplication, the order `Array.from(new Set(xs))`
produces in JS. -/
def dedupFirstAux (seen : List String) : List String → List String
  | [] => []
  | x :: xs =>
      if x ∈ seen then dedupFirstAux seen xs
      else x :: dedupFirstAux (x :: seen) xs

/-- `Array.from(new Set(xs))`. -/
def dedupFirst (xs : List String) : List String :=
  dedupFirstAux [] xs

/-- The interleaving loop of `assembleCohort`, fuelled for structural
recursion (`assembleCohort` supplies `|succIds| + |predIds|`, which is
enough because every iteration consumes one list element).  An id is
pushed when it is truthy (non-empty) and not excluded. -/
def cohortLoop (ex : List String) (wants : Nat) : Nat → List String → List String → Nat →
    List String
  | 0, _, _, _ => []
  | fuel + 1, S, P, len =>
      if wants ≤ len then []
      else
        match S, P with
        | [], [] => []
        | s :: S', p :: P' =>
            if len % 2 = 0 then
              (if s ≠ "" ∧ s ∉ ex then s :: cohortLoop ex wants fuel S' (p :: P') (len + 1)
               else cohortLoop ex wants fuel S' (p :: P') len)
            else
              (if p ≠ "" ∧ p ∉ ex then p :: cohortLoop ex wants fuel (s :: S') P' (len + 1)
               else cohortLoop ex wants fuel (s :: S') P' len)
        | s :: S', [] =>
            (if s ≠ "" ∧ s ∉ ex then s :: cohortLoop ex wants fuel S' [] (len + 1)
             else cohortLoop ex wants fuel S' [] len)
        | [], p :: P' =>
            (if p ≠ "" ∧ p ∉ ex then p :: cohortLoop ex wants fuel [] P' (len + 1)
             else cohortLoop ex wants fuel [] P' len)

/-- `assembleCohort` from `fret-service.ts`: interleave the right and
left walks around the coordinate (each fetched with `wants * 2`),
skipping excluded ids, then deduplicate and cap at `wants`. -/
def assembleCohort (st : DStore) (c : Coord) (wants : Nat) (ex : List String) : List String :=
  let succIds := neighborsRight st c (wants * 2)
  let predIds := neighborsLeft st c (wants * 2)
  (dedupFirst
    (cohortLoop ex wants (succIds.length + predIds.length) succIds predIds 0)).take wants

/-- `Dir` models the `'left' | 'right' | 'both'` direction argument. -/
inductive Dir
  | left
  | right
  | both
deriving DecidableEq, Repr

/-- `getNeighbors` from `fret-service.ts`. -/
def getNeighbors (st : DStore) (c : Coord) (d : Dir) (wants : Nat) : List String :=
  let ids :=
    (if d = Dir.right ∨ d = Dir.both then neighborsRight st c wants else []) ++
    (if d = Dir.left ∨ d = Dir.both then neighborsLeft st c wants else [])
  (dedupFirst ids).take wants

/-- The unbounded alternating merge underlying `cohortLoop` when nothing
is skipped. -/
def mergeAll : List String → List String → Nat → List String
  | [], [], _ => []
  | s :: S', p :: P', len =>
      if len % 2 = 0 then s :: mergeAll S' (p :: P') (len + 1)
      else p :: mergeAll (s :: S') P' (len + 1)
  | s :: S', [], len => s :: mergeAll S' [] (len + 1)
  | [], p :: P', len => p :: mergeAll [] P' (len + 1)
termination_by S P _ => S.length + P.length

/-- With no exclusions and no empty ids, the loop output is a truncation
of the unbounded merge. -/
theorem cohortLoop_eq_take (w : Nat) : ∀ (fuel : Nat) (S P : List String) (len : Nat),
    S.length + P.length ≤ fuel →
    (∀ x ∈ S, x ≠ "") → (∀ x ∈ P, x ≠ "") →
    cohortLoop [] w fuel S P len = (mergeAll S P len).take (w - len) := by
  intro fuel
  induction fuel with
  | zero =>
      intro S P len hf _ _
      have hS : S = [] := by
        cases S with
        | nil => rfl
        | cons a l => simp at hf
      have hP : P = [] := by
        cases P with
        | nil => rfl
        | cons a l => rw [hS] at hf; simp at hf
      subst hS; subst hP
      simp [cohortLoop, mergeAll]
  | succ fuel ih =>
      intro S P len hf hS hP
      by_cases hw : w ≤ len
      · have hw0 : w - len = 0 := by omega
        rw [hw0]
        cases S with
        | nil =>
            cases P with
            | nil => simp [cohortLoop, mergeAll, hw]
            | cons p P' => simp [cohortLoop, hw]
        | cons s S' =>
            cases P with
            | nil => simp [cohortLoop, hw]
            | cons p P' => simp [cohortLoop, hw]
      · have hw1 : 1 ≤ w - len := by omega
        cases S with
        | nil =>
            cases P with
            | nil => simp [cohortLoop, mergeAll]
            | cons p P' =>
                have hp : p ≠ "" := hP p (List.mem_cons_self p P')
                have : cohortLoop [] w (fuel + 1) [] (p :: P') len =
                    p :: cohortLoop [] w fuel [] P' (len + 1) := by
                  show (if w ≤ len then []
                        else if p ≠ "" ∧ p ∉ ([] : List String) then
                          p :: cohortLoop [] w fuel [] P' (len + 1)
                        else cohortLoop [] w fuel [] P' len) = _
                  rw [if_neg hw, if_pos ⟨hp, by simp⟩]
                rw [this, ih [] P' (len + 1) (by simp at hf ⊢; omega)
                      (by intro x hx; simp at hx) (fun x hx => hP x (List.mem_cons_of_mem p hx))]
                have hm : mergeAll [] (p :: P') len = p :: mergeAll [] P' (len + 1) := by
                  rw [mergeAll]
                rw [hm]
                rw [show w - len = (w - (len + 1)) + 1 by omega]
                rw [List.take_succ_cons]
        | cons s S' =>
            have hs : s ≠ "" := hS s (List.mem_cons_self s S')
            cases P with
            | nil =>
                have : cohortLoop [] w (fuel + 1) (s :: S') [] len =
                    s :: cohortLoop [] w fuel S' [] (len + 1) := by
                  show (if w ≤ len then []
                        else if s ≠ "" ∧ s ∉ ([] : List String) then
                          s :: cohortLoop [] w fuel S' [] (len + 1)
                        else cohortLoop [] w fuel S' [] len) = _
                  rw [if_neg hw, if_pos ⟨hs, by simp⟩]
                rw [this, ih S' [] (len + 1) (by simp at hf ⊢; omega)
                      (fun x hx => hS x (List.mem_cons_of_mem s hx))
                      (by intro x hx; simp at hx)]
                have hm : mergeAll (s :: S') [] len = s :: mergeAll S' [] (len + 1) := by
                  rw [mergeAll]
                rw [hm]
                rw [show w - len = (w - (len + 1)) + 1 by omega]
                rw [List.take_succ_cons]
            | cons p P' =>
                have hp : p ≠ "" := hP p (List.mem_cons_self p P')
                by_cases he : len % 2 = 0
                · have : cohortLoop [] w (fuel + 1) (s :: S') (p :: P') len =
                      s :: cohortLoop [] w fuel S' (p :: P') (len + 1) := by
                    show (if w ≤ len then []
                          else if len % 2 = 0 then
                            (if s ≠ "" ∧ s ∉ ([] : List String) then
                              s :: cohortLoop [] w fuel S' (p :: P') (len + 1)
                            else cohortLoop [] w fuel S' (p :: P') len)
                          else
                            (if p ≠ "" ∧ p ∉ ([] : List String) then
                              p :: cohortLoop [] w fuel (s :: S') P' (len + 1)
                            else cohortLoop [] w fuel (s :: S') P' len)) = _
                    rw [if_neg hw, if_pos he, if_pos ⟨hs, by simp⟩]
                  rw [this, ih S' (p :: P') (len + 1) (by simp at hf ⊢; omega)
                        (fun x hx => hS x (List.mem_cons_of_mem s hx)) hP]
                  have hm : mergeAll (s :: S') (p :: P') len =
                      s :: mergeAll S' (p :: P') (len + 1) := by
                    rw [mergeAll, if_pos he]
                  rw [hm]
                  rw [show w - len = (w - (len + 1)) + 1 by omega]
                  rw [List.take_succ_cons]
                · have : cohortLoop [] w (fuel + 1) (s :: S') (p :: P') len =
                      p :: cohortLoop [] w fuel (s :: S') P' (len + 1) := by
                    show (if w ≤ len then []
                          else if len % 2 = 0 then
                            (if s ≠ "" ∧ s ∉ ([] : List String) then
                              s :: cohortLoop [] w fuel S' (p :: P') (len + 1)
                            else cohortLoop [] w fuel S' (p :: P') len)
                          else
                            (if p ≠ "" ∧ p ∉ ([] : List String) then
                              p :: cohortLoop [] w fuel (s :: S') P' (len + 1)
                            else cohortLoop [] w fuel (s :: S') P' len)) = _
                    rw [if_neg hw, if_neg he, if_pos ⟨hp, by simp⟩]
                  rw [this, ih (s :: S') P' (len + 1) (by simp at hf ⊢; omega)
                        hS (fun x hx => hP x (List.mem_cons_of_mem p hx))]
                  have hm : mergeAll (s :: S') (p :: P') len =
                      p :: mergeAll (s :: S') P' (len + 1) := by
                    rw [mergeAll, if_neg he]
                  rw [hm]
                  rw [show w - len = (w - (len + 1)) + 1 by omega]
                  rw [List.take_succ_cons]

/-- Truncating both inputs beyond the output truncation does not change
the merge prefix. -/
theorem mergeAll_take (t : Nat) : ∀ (n m : Nat) (S P : List String) (len : Nat),
    t ≤ n → t ≤ m →
    (mergeAll (S.take n) (P.take m) len).take t = (mergeAll S P len).take t := by
  induction t with
  | zero => intro n m S P len _ _; simp
  | succ t ih =>
      intro n m S P len hn hm
      obtain ⟨n', rfl⟩ : ∃ n', n = n' + 1 := ⟨n - 1, by omega⟩
      obtain ⟨m', rfl⟩ : ∃ m', m = m' + 1 := ⟨m - 1, by omega⟩
      cases S with
      | nil =>
          cases P with
          | nil => simp
          | cons p P' =>
              simp only [List.take_nil, List.take_succ_cons]
              have h1 : mergeAll [] (p :: P'.take m') len = p :: mergeAll [] (P'.take m') (len + 1) := by
                rw [mergeAll]
              have h2 : mergeAll [] (p :: P') len = p :: mergeAll [] P' (len + 1) := by
                rw [mergeAll]
              rw [h1, h2, List.take_succ_cons, List.take_succ_cons]
              have := ih (n' + 1) m' [] P' (len + 1) (by omega) (by omega)
              simpa using this
      | cons s S' =>
          cases P with
          | nil =>
              simp only [List.take_nil, List.take_succ_cons]
              have h1 : mergeAll (s :: S'.take n') [] len = s :: mergeAll (S'.take n') [] (len + 1) := by
                rw [mergeAll]
              have h2 : mergeAll (s :: S') [] len = s :: mergeAll S' [] (len + 1) := by
                rw [mergeAll]
              rw [h1, h2, List.take_succ_cons, List.take_succ_cons]
              have := ih n' (m' + 1) S' [] (len + 1) (by omega) (by omega)
              simpa using this
          | cons p P' =>
              simp only [List.take_succ_cons]
              by_cases he : len % 2 = 0
              · have h1 : mergeAll (s :: S'.take n') (p :: P'.take m') len =
                    s :: mergeAll (S'.take n') (p :: P'.take m') (len + 1) := by
                  rw [mergeAll, if_pos he]
                have h2 : mergeAll (s :: S') (p :: P') len =
                    s :: mergeAll S' (p :: P') (len + 1) := by
                  rw [mergeAll, if_pos he]
                rw [h1, h2, List.take_succ_cons, List.take_succ_cons]
                have := ih n' (m' + 1) S' (p :: P') (len + 1) (by omega) (by omega)
                rw [show (p :: P').take (m' + 1) = p :: P'.take m' from List.take_succ_cons] at this
                rw [this]
              · have h1 : mergeAll (s :: S'.take n') (p :: P'.take m') len =
                    p :: mergeAll (s :: S'.take n') (P'.take m') (len + 1) := by
                  rw [mergeAll, if_neg he]
                have h2 : mergeAll (s :: S') (p :: P') len =
                    p :: mergeAll (s :: S') P' (len + 1) := by
                  rw [mergeAll, if_neg he]
                rw [h1, h2, List.take_succ_cons, List.take_succ_cons]
                have := ih (n' + 1) m' (s :: S') P' (len + 1) (by omega) (by omega)
                rw [show (s :: S').take (n' + 1) = s :: S'.take n' from List.take_succ_cons] at this
                rw [this]

/-- Deduplication maps list extension to list extension. -/
theorem dedupFirstAux_append (l t0 : List String) : ∀ (seen : List String),
    ∃ t, dedupFirstAux seen (l ++ t0) = dedupFirstAux seen l ++ t := by
  induction l with
  | nil => intro seen; exact ⟨dedupFirstAux seen t0, by simp [dedupFirstAux]⟩
  | cons x xs ih =>
      intro seen
      by_cases hx : x ∈ seen
      · obtain ⟨t, ht⟩ := ih seen
        exact ⟨t, by simp [dedupFirstAux, hx, ht]⟩
      · obtain ⟨t, ht⟩ := ih (x :: seen)
        exact ⟨t, by simp [dedupFirstAux, hx, ht]⟩

theorem dedupFirstAux_length (l : List String) : ∀ (seen : List String),
    (dedupFirstAux seen l).length ≤ l.length := by
  induction l with
  | nil => intro seen; simp [dedupFirstAux]
  | cons x xs ih =>
      intro seen
      by_cases hx : x ∈ seen
      · simp only [dedupFirstAux, if_pos hx]
        exact le_trans (ih seen) (by simp)
      · simp only [dedupFirstAux, if_neg hx, List.length_cons]
        exact Nat.succ_le_succ (ih (x :: seen))

/-- C7 (amended): with an empty exclusion set (and stores whose ids are
non-empty strings), `assembleCohort` is monotone in `wants`: the cohort
for a smaller `wants` is a prefix of the cohort for a larger one.  A
non-empty exclusion set breaks the property (see the counterexample):
skipped walk entries shift the alternation between the two walks. -/
theorem assembleCohort_monotone (st : DStore) (c : Coord) (w w' : Nat)
    (hw : w ≤ w') (hne : ∀ e ∈ st, e.id ≠ "") :
    ∃ t, assembleCohort st c w' [] = assembleCohort st c w [] ++ t := by
  classical
  have hwalkR : ∀ x ∈ rightWalk st c, x ≠ "" := by
    intro x hx
    obtain ⟨e, he, heid⟩ := mem_of_rightWalk hx
    rw [← heid]
    exact hne e he
  have hwalkL : ∀ x ∈ leftWalk st c, x ≠ "" := by
    intro x hx
    obtain ⟨e, he, heid⟩ := mem_of_leftWalk hx
    rw [← heid]
    exact hne e he
  -- closed form of the cohort for any `wants`
  have hclosed : ∀ v : Nat, assembleCohort st c v [] =
      (dedupFirst ((mergeAll (rightWalk st c) (leftWalk st c) 0).take v)).take v := by
    intro v
    have h1 : cohortLoop [] v
        ((neighborsRight st c (v * 2)).length + (neighborsLeft st c (v * 2)).length)
        (neighborsRight st c (v * 2)) (neighborsLeft st c (v * 2)) 0 =
        (mergeAll (neighborsRight st c (v * 2)) (neighborsLeft st c (v * 2)) 0).take v := by
      have h := cohortLoop_eq_take v
        ((neighborsRight st c (v * 2)).length + (neighborsLeft st c (v * 2)).length)
        (neighborsRight st c (v * 2)) (neighborsLeft st c (v * 2)) 0 le_rfl
        (fun x hx => hwalkR x (List.mem_of_mem_take hx))
        (fun x hx => hwalkL x (List.mem_of_mem_take hx))
      simpa using h
    have h2 : (mergeAll (neighborsRight st c (v * 2)) (neighborsLeft st c (v * 2)) 0).take v =
        (mergeAll (rightWalk st c) (leftWalk st c) 0).take v := by
      have h := mergeAll_take v (v * 2) (v * 2) (rightWalk st c) (leftWalk st c) 0
        (by omega) (by omega)
      simpa [neighborsRight, neighborsLeft] using h
    show (dedupFirst (cohortLoop [] v
        ((neighborsRight st c (v * 2)).length + (neighborsLeft st c (v * 2)).length)
        (neighborsRight st c (v * 2)) (neighborsLeft st c (v * 2)) 0)).take v = _
    rw [h1, h2]
  rw [hclosed w, hclosed w']
  set M := mergeAll (rightWalk st c) (leftWalk st c) 0 with hM
  have htake : M.take w' = M.take w ++ (M.drop w).take (w' - w) := by
    rw [← List.take_add]
    congr 1
    omega
  rw [htake]
  obtain ⟨t, ht⟩ := dedupFirstAux_append (M.take w) ((M.drop w).take (w' - w)) []
  show ∃ u, (dedupFirstAux [] (M.take w ++ (M.drop w).take (w' - w))).take w' =
      (dedupFirstAux [] (M.take w)).take w ++ u
  rw [ht]
  have hlen : (dedupFirstAux [] (M.take w)).length ≤ w :=
    le_trans (dedupFirstAux_length (M.take w) []) (by simp)
  have htw : (dedupFirstAux [] (M.take w)).take w = dedupFirstAux [] (M.take w) :=
    List.take_of_length_le hlen
  rw [htw, List.take_append_eq_append_take]
  rw [List.take_of_length_le (le_trans hlen (by omega))]
  exact ⟨t.take (w' - (dedupFirstAux [] (M.take w)).length), rfl⟩

def c7Store : DStore :=
  [freshEntry "r1" [11], freshEntry "r2" [12], freshEntry "r3" [13], freshEntry "p1" [5]]

/-- C7 counterexample: with the exclusion set `{r1, r2}`, the cohort for
`wants = 1` is `[p1]` (the successor walk of length 2 is exhausted by
exclusions, so the loop switches to the predecessor side), while the
cohort for `wants = 2` starts with `r3` (the longer successor walk now
contains a non-excluded id).  `[p1]` is not a prefix of `[r3, p1]`. -/
theorem assembleCohort_not_monotone :
    assembleCohort c7Store [10] 1 ["r1", "r2"] = ["p1"] ∧
    assembleCohort c7Store [10] 2 ["r1", "r2"] = ["r3", "p1"] ∧
    ¬ ∃ t, assembleCohort c7Store [10] 2 ["r1", "r2"] =
        assembleCohort c7Store [10] 1 ["r1", "r2"] ++ t := by
  have h1 : assembleCohort c7Store [10] 1 ["r1", "r2"] = ["p1"] := by
    with_unfolding_all decide
  have h2 : assembleCohort c7Store [10] 2 ["r1", "r2"] = ["r3", "p1"] := by
    with_unfolding_all decide
  refine ⟨h1, h2, ?_⟩
  rintro ⟨t, ht⟩
  rw [h1, h2] at ht
  simp at ht

theorem assembleCohort_monotone_witness :
    (1 : Nat) ≤ 2 ∧ (∀ e ∈ c7Store, e.id ≠ "") ∧
    ∃ t, assembleCohort c7Store [10] 2 [] = assembleCohort c7Store [10] 1 [] ++ t :=
  ⟨by omega, by with_unfolding_all decide,
   assembleCohort_monotone c7Store [10] 1 2 (by omega) (by with_unfolding_all decide)⟩

/-! ## Service layer (`service/fret-service.ts`, `service/dedup-cache.ts`)

The service's stateful fields (`store`, `dedupCache`, `bucketMaybeAct`,
`inflightAct`, `backoffMap`) are carried explicitly in `SState`; the
host node, the crypto digests, the estimator and the remote peers are
oracles in `Ctx`.  `Date.now()` is passed as an explicit `now : ℤ`. -/

/-- `RouteAndMaybeActV1` (`index.ts`), restricted to the fields read by
`handleMaybeAct` and `routeAct`.  `breadcrumbs` carries
`msg.breadcrumbs ?? []`, an empty `correlationId` plays the JS-falsy
`correlation_id`, and `wantK = none` plays an `undefined` `want_k` (the
code reads `msg.want_k ?? cfg.k`). -/
structure MsgV1 where
  key : String
  wantK : Option Nat
  ttl : ℤ
  minSigs : Nat
  activity : Option String
  breadcrumbs : List String
  correlationId : String
  timestamp : ℤ
deriving DecidableEq, Repr

/-- `NearAnchorV1` (`index.ts`), without the constant `v : 1` tag. -/
structure NearAnchorV1 where
  anchors : List String
  cohortHint : List String
  estimatedClusterSize : ℚ
  confidence : ℚ
deriving DecidableEq, Repr

/-- The `NearAnchorV1 | { commitCertificate }` result type of `routeAct`,
which is also the dedup cache's value type. -/
inductive RouteResult
  | anchor (a : NearAnchorV1)
  | commit (cert : String)
deriving DecidableEq, Repr

/-- The `NearAnchorV1 | BusyResponseV1 | { commitCertificate }` response
type of `handleMaybeAct`; `busy` carries `retry_after_ms`. -/
inductive Resp
  | anchor (a : NearAnchorV1)
  | busy (retryMs : ℚ)
  | commit (cert : String)
deriving DecidableEq, Repr

/-- Injection of a `routeAct` result into the response type. -/
def RouteResult.toResp : RouteResult → Resp
  | RouteResult.anchor a => Resp.anchor a
  | RouteResult.commit c => Resp.commit c

/-! ### `DedupCache` (`service/dedup-cache.ts`)

The JS `Map` in insertion order, as an association list; all cache
operations keep keys unique. -/

/-- One `{ result, expires }` cache slot. -/
structure DedupEntry where
  value : RouteResult
  expires : ℤ
deriving DecidableEq, Repr

abbrev DCache := List (String × DedupEntry)

/-- `DedupCache` default `ttlMs = 30_000`. -/
def dedupTtlMs : ℤ := 30000

/-- `DedupCache` default `maxSize = 1024`. -/
def dedupMaxSize : Nat := 1024

/-- `Map.get` on the entries map. -/
def cacheFind (c : DCache) (k : String) : Option DedupEntry :=
  (c.find? (fun p => p.1 == k)).map (fun p => p.2)

/-- `Map.delete` (for unique keys). -/
def cacheErase (c : DCache) (k : String) : DCache :=
  c.filter (fun p => !(p.1 == k))

/-- `DedupCache.get`: purges the entry when it has expired.  Returns the
cached value (if live) together with the updated map. -/
def dedupGet (c : DCache) (k : String) (now : ℤ) : Option RouteResult × DCache :=
  match cacheFind c k with
  | none => (none, c)
  | some e => if e.expires < now then (none, cacheErase c k) else (some e.value, c)

/-- `DedupCache.evictExpired`. -/
def cacheEvictExpired (c : DCache) (now : ℤ) : DCache :=
  c.filter (fun p => !(decide (p.2.expires < now)))

/-- `DedupCache.evictOldest`: deletes the first-inserted key. -/
def cacheEvictOldest (c : DCache) : DCache :=
  c.drop 1

/-- The eviction prologue of `DedupCache.set` (evict expired entries when
full, then the oldest entry if still full). -/
def dedupEvict (c : DCache) (now : ℤ) : DCache :=
  if dedupMaxSize ≤ c.length then
    (if dedupMaxSize ≤ (cacheEvictExpired c now).length
     then cacheEvictOldest (cacheEvictExpired c now)
     else cacheEvictExpired c now)
  else c

/-- `Map.set`: replace in place when the key exists, else append. -/
def dedupInsert (c : DCache) (k : String) (v : RouteResult) (now : ℤ) : DCache :=
  if (cacheFind c k).isSome then
    c.map (fun p => if p.1 = k then (k, ⟨v, now + dedupTtlMs⟩) else p)
  else c ++ [(k, ⟨v, now + dedupTtlMs⟩)]

/-- `DedupCache.set`. -/
def dedupSet (c : DCache) (k : String) (v : RouteResult) (now : ℤ) : DCache :=
  dedupInsert (dedupEvict c now) k v now

/-! ### Token bucket

Modelled from the spec (§4.5): the `TokenBucket` source is not among the
provided files.  Capacity `C`, refill rate `r` tokens/second; `tryTake`
refills to `now` first and takes one token if available; `retryAfterMs`
reports the milliseconds until the next token. -/

structure TokenBucket where
  capacity : ℚ
  rate : ℚ
  tokens : ℚ
  last : ℤ
deriving DecidableEq, Repr

/-- Modelled from the spec: refill up to capacity at `rate` tokens/s. -/
def bucketRefill (b : TokenBucket) (now : ℤ) : TokenBucket :=
  { b with
    tokens := min b.capacity (b.tokens + ((now - b.last : ℤ) : ℚ) / 1000 * b.rate),
    last := now }

/-- Modelled from the spec: `tryTake()`. -/
def tryTake (b : TokenBucket) (now : ℤ) : Bool × TokenBucket :=
  if 1 ≤ (bucketRefill b now).tokens then
    (true, { bucketRefill b now with tokens := (bucketRefill b now).tokens - 1 })
  else (false, bucketRefill b now)

/-- Modelled from the spec: `retryAfterMs()`. -/
def retryAfterMs (b : TokenBucket) (now : ℤ) : ℚ :=
  if 1 ≤ (bucketRefill b now).tokens then 0
  else (1 - (bucketRefill b now).tokens) * 1000 / (bucketRefill b now).rate

/-! ### Per-peer backoff (`fret-service.ts`) -/

/-- The `backoffMap`: id ↦ `(until, factor)`. -/
abbrev BackoffMap := List (String × ℤ × Nat)

/-- `backoffMap.get`. -/
def findBackoff (bo : BackoffMap) (pid : String) : Option (ℤ × Nat) :=
  (bo.find? (fun p => p.1 == pid)).map (fun p => p.2)

/-- `recordBackoff`: the factor doubles up to 32 (1 on first failure) and
the peer is backed off for `1000 · factor` ms. -/
def recordBackoff (bo : BackoffMap) (pid : String) (now : ℤ) : BackoffMap :=
  match findBackoff bo pid with
  | none => bo ++ [(pid, now + 1000 * 1, 1)]
  | some e =>
      bo.map (fun p => if p.1 = pid
        then (pid, now + 1000 * ((min (e.2 * 2) 32 : ℕ) : ℤ), min (e.2 * 2) 32)
        else p)

/-- `clearBackoff`. -/
def clearBackoff (bo : BackoffMap) (pid : String) : BackoffMap :=
  bo.filter (fun p => !(p.1 == pid))

/-- `getBackoffPenalty`: `min(1, factor / 32)` while the backoff is live,
0 otherwise.  (The code also deletes an expired entry on read; the
returned penalty is 0 either way and no theorem below observes the map
through this path.) -/
def getBackoffPenalty (bo : BackoffMap) (pid : String) (now : ℤ) : ℚ :=
  match findBackoff bo pid with
  | none => 0
  | some e => if e.1 < now then 0 else min 1 ((e.2 : ℚ) / 32)

/-- `linkQuality` from `fret-service.ts`. -/
def linkQuality (st : DStore) (pid : String) : ℚ :=
  match getById st pid with
  | none => 0
  | some e =>
      if e.successCount + e.failureCount = 0 then 1/2
      else (e.successCount : ℚ) / ((e.successCount + e.failureCount : ℕ) : ℚ)

/-! ### Service configuration, state and oracles -/

/-- The configuration fields the maybe-act pipeline reads. -/
structure FretConfig where
  k : Nat
  m : Nat
  capacity : Nat
  profileCore : Bool
deriving DecidableEq, Repr

/-- The service's mutable fields. -/
structure SState where
  store : DStore
  dedup : DCache
  bucketMaybeAct : TokenBucket
  inflightAct : Nat
  backoff : BackoffMap
deriving DecidableEq, Repr

/-- Outcome of `sendMaybeAct` to a remote peer: a busy reply, a result,
or a thrown error. -/
inductive SendResult
  | busy
  | ok (r : RouteResult)
  | failed
deriving DecidableEq, Repr

/-- The service's read-only oracles: `selfId` is the host peer id;
`hashKeyF` is `hashKey ∘ base64url-decode` and `hashPeerF` is
`hashPeerId ∘ peerIdFromString` (SHA-256 digests, abstracted); `isConn`
is the host's connection test; `estimate` is `estimateSizeAndConfidence`
(its source is not among the provided files); `sendOutcome` is the
remote peer's reply to a forwarded message; `activityHandler` is the
registered in-cluster callback; `successUpd` is the `scoreSuccess` field
update of the relevance module (source not provided). -/
structure Ctx where
  selfId : String
  hashKeyF : String → Coord
  hashPeerF : String → Coord
  isConn : String → Bool
  estimate : DStore → Nat → ℚ × ℚ
  sendOutcome : String → MsgV1 → SendResult
  activityHandler : Option (String → List String → Nat → String → String)
  successUpd : PeerEntry → PeerEntry

/-! ### `routeAct` and its helpers -/

/-- `pickAnchors` from `fret-service.ts`: legacy-mode `chooseNextHop`
twice against the zero self-coordinate with a neutral link quality, the
second time with the first winner filtered out. -/
def pickAnchors (st : DStore) (isConn : String → Bool) (candidates : List String) : List String :=
  if (dedupFirst candidates).isEmpty then []
  else
    (chooseNextHop st (List.replicate 32 0) (dedupFirst candidates) isConn
        (fun _ => 1/2) {}).toList ++
    (chooseNextHop st (List.replicate 32 0)
      (match chooseNextHop st (List.replicate 32 0) (dedupFirst candidates) isConn
          (fun _ => 1/2) {} with
       | some f => (dedupFirst candidates).filter (fun id => !(id == f))
       | none => dedupFirst candidates)
      isConn (fun _ => 1/2) {}).toList

/-- `nearAnchorOnly` from `fret-service.ts`. -/
def nearAnchorOnly (ctx : Ctx) (cfg : FretConfig) (st : DStore) (msg : MsgV1) : NearAnchorV1 :=
  { anchors := pickAnchors st ctx.isConn
      ((getNeighbors st (ctx.hashKeyF msg.key) Dir.right cfg.m).take 3 ++
       (getNeighbors st (ctx.hashKeyF msg.key) Dir.left cfg.m).take 3),
    cohortHint := dedupFirst
      ((getNeighbors st (ctx.hashKeyF msg.key) Dir.right cfg.m).take 2 ++
       (getNeighbors st (ctx.hashKeyF msg.key) Dir.left cfg.m).take 2),
    estimatedClusterSize := (cfg.k : ℚ),
    confidence := 1/2 }

/-- `buildNearAnchor` from `fret-service.ts`. -/
def buildNearAnchor (ctx : Ctx) (cfg : FretConfig) (st : DStore) (coord : Coord)
    (n conf : ℚ) : NearAnchorV1 :=
  { anchors := pickAnchors st ctx.isConn
      ((getNeighbors st coord Dir.right cfg.m).take 4 ++
       (getNeighbors st coord Dir.left cfg.m).take 4),
    cohortHint := dedupFirst
      ((getNeighbors st coord Dir.right cfg.m).take 4 ++
       (getNeighbors st coord Dir.left cfg.m).take 4),
    estimatedClusterSize := max (cfg.k : ℚ) n,
    confidence := conf }

/-- `neighborDistance` from `fret-service.ts` (`none` plays JS Infinity). -/
def neighborDistance (st : DStore) (selfId : String) (coord : Coord) (k : Nat) : Option Nat :=
  (assembleCohort st coord (max 1 k) []).findIdx? (fun id => id == selfId)

/-- The `distIdx <= 1` in-cluster test of `routeAct`. -/
def inClusterTest (st : DStore) (selfId : String) (coord : Coord) (k : Nat) : Bool :=
  match neighborDistance st selfId coord k with
  | some i => decide (i ≤ 1)
  | none => false

/-- `applySuccess` restricted to the store: upsert-if-absent, then apply
the abstracted `scoreSuccess` field update. -/
def applySuccessStore (ctx : Ctx) (st : DStore) (pid : String) : DStore :=
  (if (getById st pid).isSome then st else upsert st pid (ctx.hashPeerF pid)).map
    (fun e => if e.id = pid then ctx.successUpd e else e)

/-- The forwarded copy: `ttl - 1` and self appended to the breadcrumbs. -/
def fwdMsg (ctx : Ctx) (msg : MsgV1) : MsgV1 :=
  { msg with ttl := msg.ttl - 1, breadcrumbs := msg.breadcrumbs ++ [ctx.selfId] }

/-- The candidate list of `routeAct`'s forwarding step: up to `max(4, m)`
cohort members around `coord`, minus `breadcrumbs ∪ {self}`. -/
def forwardCandidates (ctx : Ctx) (cfg : FretConfig) (st : DStore) (msg : MsgV1)
    (coord : Coord) : List String :=
  (assembleCohort st coord (max 4 cfg.m) []).filter
    (fun id => decide (id ∉ msg.breadcrumbs ++ [ctx.selfId]))

/-- `buildNextHopOptions` from `fret-service.ts`. -/
def forwardOptions (cfg : FretConfig) (s : SState) (now : ℤ) (n conf : ℚ) : NextHopOptions :=
  { nearRadius := some (computeNearRadius n cfg.k),
    confidence := some conf,
    backoffPenalty := some (fun id => getBackoffPenalty s.backoff id now),
    connectedToleranceBytes := none }

/-- The send-and-outcome tail of `routeAct`'s forwarding step for a
selected target: on success, apply the success update and clear backoff
and return the remote result; on busy or error, record backoff and fall
through to `buildNearAnchor`. -/
def forwardSend (ctx : Ctx) (cfg : FretConfig) (s : SState) (msg : MsgV1) (now : ℤ)
    (coord : Coord) (n conf : ℚ) (next : String) :
    RouteResult × SState × List (String × MsgV1) :=
  match ctx.sendOutcome next (fwdMsg ctx msg) with
  | SendResult.ok r =>
      (r, { s with
            store := applySuccessStore ctx s.store next
            backoff := clearBackoff s.backoff next }, [(next, fwdMsg ctx msg)])
  | SendResult.busy =>
      (RouteResult.anchor (buildNearAnchor ctx cfg s.store coord n conf),
       { s with backoff := recordBackoff s.backoff next now }, [(next, fwdMsg ctx msg)])
  | SendResult.failed =>
      (RouteResult.anchor (buildNearAnchor ctx cfg s.store coord n conf),
       { s with backoff := recordBackoff s.backoff next now }, [(next, fwdMsg ctx msg)])

/-- The forwarding step of `routeAct` (`msg.ttl > 0`, not in-cluster). -/
def forwardStep (ctx : Ctx) (cfg : FretConfig) (s : SState) (msg : MsgV1) (now : ℤ)
    (coord : Coord) (n conf : ℚ) : RouteResult × SState × List (String × MsgV1) :=
  match chooseNextHop s.store coord (forwardCandidates ctx cfg s.store msg coord)
      ctx.isConn (fun id => linkQuality s.store id) (forwardOptions cfg s now n conf) with
  | none => (RouteResult.anchor (buildNearAnchor ctx cfg s.store coord n conf), s, [])
  | some next => forwardSend ctx cfg s msg now coord n conf next

/-- The in-cluster branch of `routeAct`: with an activity payload and a
registered handler, commit via the handler; otherwise return a
`NearAnchor` inviting resend. -/
def inClusterStep (ctx : Ctx) (cfg : FretConfig) (s : SState) (msg : MsgV1)
    (n conf : ℚ) : RouteResult × SState × List (String × MsgV1) :=
  match msg.activity, ctx.activityHandler with
  | some act, some handler =>
      (RouteResult.commit (handler act
        (assembleCohort s.store (ctx.hashKeyF msg.key) (msg.wantK.getD cfg.k) [])
        msg.minSigs msg.correlationId), s, [])
  | _, _ =>
      (RouteResult.anchor (buildNearAnchor ctx cfg s.store (ctx.hashKeyF msg.key) n conf),
       s, [])

/-- `routeAct` from `fret-service.ts`: result, updated state, and the
list of forwarded copies `(target, message)`. -/
def routeAct (ctx : Ctx) (cfg : FretConfig) (s : SState) (msg : MsgV1) (now : ℤ) :
    RouteResult × SState × List (String × MsgV1) :=
  if inClusterTest s.store ctx.selfId (ctx.hashKeyF msg.key)
      (max 2 (msg.wantK.getD cfg.k)) = true then
    inClusterStep ctx cfg s msg (ctx.estimate s.store cfg.m).1 (ctx.estimate s.store cfg.m).2
  else if 0 < msg.ttl then
    forwardStep ctx cfg s msg now (ctx.hashKeyF msg.key)
      (ctx.estimate s.store cfg.m).1 (ctx.estimate s.store cfg.m).2
  else
    (RouteResult.anchor (buildNearAnchor ctx cfg s.store (ctx.hashKeyF msg.key)
      (ctx.estimate s.store cfg.m).1 (ctx.estimate s.store cfg.m).2), s, [])

/-! ### `handleMaybeAct` -/

/-- Modelled from the spec (§4.9 and the P5 tests): `validateTimestamp`
accepts timestamps within ±5 minutes.  (`rpc/protocols.ts` is not among
the provided files.) -/
def validateTs (ts now : ℤ) : Bool :=
  decide (|now - ts| ≤ 300000)

/-- `msg.activity && msg.activity.length > 128 * 1024`. -/
def activityTooLarge (msg : MsgV1) : Bool :=
  match msg.activity with
  | none => false
  | some a => decide (131072 < a.length)

/-- The in-flight cap: 16 on the core profile, 4 on edge. -/
def maybeActLimit (cfg : FretConfig) : Nat :=
  if cfg.profileCore then 16 else 4

/-- The state after `bucketMaybeAct.tryTake()`. -/
def bucketTaken (s : SState) (now : ℤ) : SState :=
  { s with bucketMaybeAct := (tryTake s.bucketMaybeAct now).2 }

/-- Ghost tag naming which return of `handleMaybeAct` produced the
response. -/
inductive HPath
  | loop
  | cachedHit
  | staleTs
  | ttlExpired
  | tooLarge
  | rateLimited
  | inflightCap
  | routed
deriving DecidableEq, Repr

/-- A `handleMaybeAct` outcome: response, updated state, forwarded
copies, and the ghost path tag. -/
structure HOut where
  resp : Resp
  state : SState
  forwards : List (String × MsgV1)
  path : HPath
deriving DecidableEq, Repr

/-- Steps 3–8 of `handleMaybeAct` (after loop detection and the dedup
lookup): the timestamp, TTL, payload-size, rate-limit and in-flight
guards, then `routeAct`, whose result is cached under a non-empty
correlation id. -/
def handleGuards (ctx : Ctx) (cfg : FretConfig) (s : SState) (msg : MsgV1) (now : ℤ) : HOut :=
  if validateTs msg.timestamp now = false then
    ⟨Resp.anchor (nearAnchorOnly ctx cfg s.store msg), s, [], HPath.staleTs⟩
  else if msg.ttl ≤ 0 then
    ⟨Resp.anchor (nearAnchorOnly ctx cfg s.store msg), s, [], HPath.ttlExpired⟩
  else if activityTooLarge msg = true then
    ⟨Resp.anchor (nearAnchorOnly ctx cfg s.store msg), s, [], HPath.tooLarge⟩
  else if (tryTake s.bucketMaybeAct now).1 = false then
    ⟨Resp.busy (retryAfterMs (tryTake s.bucketMaybeAct now).2 now), bucketTaken s now, [],
     HPath.rateLimited⟩
  else if maybeActLimit cfg ≤ s.inflightAct then
    ⟨Resp.busy 500, bucketTaken s now, [], HPath.inflightCap⟩
  else
    ⟨(routeAct ctx cfg (bucketTaken s now) msg now).1.toResp,
     { (routeAct ctx cfg (bucketTaken s now) msg now).2.1 with
        dedup := if msg.correlationId ≠ "" then
            dedupSet (routeAct ctx cfg (bucketTaken s now) msg now).2.1.dedup
              msg.correlationId (routeAct ctx cfg (bucketTaken s now) msg now).1 now
          else (routeAct ctx cfg (bucketTaken s now) msg now).2.1.dedup },
     (routeAct ctx cfg (bucketTaken s now) msg now).2.2, HPath.routed⟩

/-- `handleMaybeAct` from `fret-service.ts`: the breadcrumb loop check,
the dedup-cache lookup, then the guard chain. -/
def handleMaybeAct (ctx : Ctx) (cfg : FretConfig) (s : SState) (msg : MsgV1) (now : ℤ) : HOut :=
  if ctx.selfId ∈ msg.breadcrumbs then
    ⟨Resp.anchor (nearAnchorOnly ctx cfg s.store msg), s, [], HPath.loop⟩
  else
    match (if msg.correlationId ≠ "" then dedupGet s.dedup msg.correlationId now
           else (none, s.dedup)).1 with
    | some v =>
        ⟨v.toResp,
         { s with dedup := (if msg.correlationId ≠ "" then dedupGet s.dedup msg.correlationId now
                            else (none, s.dedup)).2 }, [], HPath.cachedHit⟩
    | none =>
        handleGuards ctx cfg
          { s with dedup := (if msg.correlationId ≠ "" then dedupGet s.dedup msg.correlationId now
                             else (none, s.dedup)).2 } msg now

/-! ### Dedup-cache lemmas -/

theorem cacheFind_cons_of_neg {p : String × DedupEntry} {k : String} (rest : DCache)
    (h : ¬ (p.1 == k) = true) : cacheFind (p :: rest) k = cacheFind rest k := by
  unfold cacheFind
  rw [@List.find?_cons_of_neg _ (fun q => q.1 == k) p rest h]

theorem cacheFind_cons_of_pos {p : String × DedupEntry} {k : String} (rest : DCache)
    (h : (p.1 == k) = true) : cacheFind (p :: rest) k = some p.2 := by
  unfold cacheFind
  rw [@List.find?_cons_of_pos _ (fun q => q.1 == k) p rest h]
  rfl

theorem cacheFind_erase (c : DCache) (k0 k : String) :
    cacheFind (cacheErase c k0) k = if k = k0 then none else cacheFind c k := by
  induction c with
  | nil =>
      by_cases hk : k = k0
      · rw [if_pos hk]; rfl
      · rw [if_neg hk]; rfl
  | cons p rest ih =>
      by_cases hp0 : (p.1 == k0) = true
      · have he : cacheErase (p :: rest) k0 = cacheErase rest k0 := by
          unfold cacheErase
          rw [List.filter_cons]
          rw [if_neg (by simp [hp0])]
        rw [he, ih]
        by_cases hk : k = k0
        · rw [if_pos hk, if_pos hk]
        · rw [if_neg hk, if_neg hk]
          have hpk : ¬ (p.1 == k) = true := by
            have h1 : p.1 = k0 := eq_of_beq hp0
            simp [h1]
            exact fun hh => hk hh.symm
          rw [cacheFind_cons_of_neg rest hpk]
      · have hp0b : (p.1 == k0) = false := by
          revert hp0; cases h : (p.1 == k0) <;> simp
        have he : cacheErase (p :: rest) k0 = p :: cacheErase rest k0 := by
          simp [cacheErase, List.filter_cons, hp0b]
        rw [he]
        by_cases hpk : (p.1 == k) = true
        · have hkk : ¬ k = k0 := by
            have h1 : p.1 = k := eq_of_beq hpk
            intro hh
            exact (beq_eq_false_iff_ne.mp hp0b) (h1.symm ▸ hh)
          rw [if_neg hkk]
          rw [cacheFind_cons_of_pos (cacheErase rest k0) hpk, cacheFind_cons_of_pos rest hpk]
        · rw [cacheFind_cons_of_neg (cacheErase rest k0) hpk, cacheFind_cons_of_neg rest hpk]
          exact ih

theorem cacheFind_append_right (c : DCache) (k : String) (e : DedupEntry)
    (h : cacheFind c k = none) : cacheFind (c ++ [(k, e)]) k = some e := by
  induction c with
  | nil =>
      show cacheFind ((k, e) :: []) k = some e
      rw [cacheFind_cons_of_pos [] (by simp)]
  | cons p rest ih =>
      by_cases hpk : (p.1 == k) = true
      · exfalso
        rw [cacheFind_cons_of_pos rest hpk] at h
        simp at h
      · have h2 : cacheFind rest k = none := by
          rw [cacheFind_cons_of_neg rest hpk] at h
          exact h
        show cacheFind (p :: (rest ++ [(k, e)])) k = some e
        rw [cacheFind_cons_of_neg (rest ++ [(k, e)]) hpk]
        exact ih h2

theorem cacheFind_map_replace (k : String) (e : DedupEntry) :
    ∀ (c : DCache), (cacheFind c k).isSome = true →
    cacheFind (c.map (fun p => if p.1 = k then (k, e) else p)) k = some e := by
  intro c
  induction c with
  | nil => intro h; simp [cacheFind] at h
  | cons p rest ih =>
      intro h
      show cacheFind ((if p.1 = k then (k, e) else p) ::
        rest.map (fun p => if p.1 = k then (k, e) else p)) k = some e
      by_cases hpk : p.1 = k
      · rw [if_pos hpk]
        rw [cacheFind_cons_of_pos (rest.map (fun p => if p.1 = k then (k, e) else p))
          (by simp)]
      · rw [if_neg hpk]
        have hpkb : ¬ (p.1 == k) = true := by simp [hpk]
        have h2 : (cacheFind rest k).isSome = true := by
          rw [cacheFind_cons_of_neg rest hpkb] at h
          exact h
        rw [cacheFind_cons_of_neg (rest.map (fun p => if p.1 = k then (k, e) else p)) hpkb]
        exact ih h2

theorem cacheFind_dedupInsert (c : DCache) (k : String) (v : RouteResult) (now : ℤ) :
    cacheFind (dedupInsert c k v now) k = some ⟨v, now + dedupTtlMs⟩ := by
  unfold dedupInsert
  by_cases h : (cacheFind c k).isSome = true
  · rw [if_pos h]
    exact cacheFind_map_replace k ⟨v, now + dedupTtlMs⟩ c h
  · rw [if_neg h]
    refine cacheFind_append_right c k _ ?_
    cases hc : cacheFind c k with
    | none => rfl
    | some e => rw [hc] at h; simp at h

/-- `DedupCache.set` leaves the key bound to the fresh value with a
30-second expiry, whatever the eviction prologue did. -/
theorem cacheFind_dedupSet (c : DCache) (k : String) (v : RouteResult) (now : ℤ) :
    cacheFind (dedupSet c k v now) k = some ⟨v, now + dedupTtlMs⟩ :=
  cacheFind_dedupInsert (dedupEvict c now) k v now

theorem dedupGet_eq_none (c : DCache) (k : String) (now : ℤ)
    (hf : cacheFind c k = none) : dedupGet c k now = (none, c) := by
  unfold dedupGet
  rw [hf]

theorem dedupGet_eq_expired (c : DCache) (k : String) (now : ℤ) (e : DedupEntry)
    (hf : cacheFind c k = some e) (hx : e.expires < now) :
    dedupGet c k now = (none, cacheErase c k) := by
  unfold dedupGet
  rw [hf]
  show (if e.expires < now then ((none : Option RouteResult), cacheErase c k)
        else (some e.value, c)) = ((none : Option RouteResult), cacheErase c k)
  rw [if_pos hx]

theorem dedupGet_eq_live (c : DCache) (k : String) (now : ℤ) (e : DedupEntry)
    (hf : cacheFind c k = some e) (hx : ¬ e.expires < now) :
    dedupGet c k now = (some e.value, c) := by
  unfold dedupGet
  rw [hf]
  show (if e.expires < now then ((none : Option RouteResult), cacheErase c k)
        else (some e.value, c)) = (some e.value, c)
  rw [if_neg hx]

/-- `DedupCache.get` adds no binding: anything found afterwards was
already there. -/
theorem dedupGet_find_mono (c : DCache) (k0 : String) (now : ℤ) (k : String) (v : DedupEntry) :
    cacheFind (dedupGet c k0 now).2 k = some v → cacheFind c k = some v := by
  intro h
  cases hf : cacheFind c k0 with
  | none => rw [dedupGet_eq_none c k0 now hf] at h; exact h
  | some e =>
      by_cases hx : e.expires < now
      · rw [dedupGet_eq_expired c k0 now e hf hx] at h
        replace h : cacheFind (cacheErase c k0) k = some v := h
        rw [cacheFind_erase c k0 k] at h
        by_cases hk : k = k0
        · rw [if_pos hk] at h; exact absurd h (by simp)
        · rw [if_neg hk] at h; exact h
      · rw [dedupGet_eq_live c k0 now e hf hx] at h; exact h

/-- A missed `DedupCache.get` (possibly purging an expired entry) does
not change what a later `get` of the same key observes. -/
theorem dedupGet_obs_stable (c : DCache) (k : String) (now t : ℤ)
    (hdg : (dedupGet c k now).1 = none) (ht : now ≤ t) :
    (dedupGet (dedupGet c k now).2 k t).1 = (dedupGet c k t).1 := by
  cases hf : cacheFind c k with
  | none => rw [dedupGet_eq_none c k now hf]
  | some e =>
      by_cases hx : e.expires < now
      · rw [dedupGet_eq_expired c k now e hf hx]
        have hfe : cacheFind (cacheErase c k) k = none := by
          rw [cacheFind_erase c k k]
          rw [if_pos rfl]
        rw [show dedupGet ((none : Option RouteResult), cacheErase c k).2 k t
              = (none, cacheErase c k) from dedupGet_eq_none (cacheErase c k) k t hfe]
        rw [dedupGet_eq_expired c k t e hf (lt_of_lt_of_le hx ht)]
      · exfalso
        rw [dedupGet_eq_live c k now e hf hx] at hdg
        exact absurd (show (some e.value : Option RouteResult) = none from hdg) (by simp)

/-! ### Selector membership lemmas -/

/-- `pickScored` only returns the id of a scored candidate. -/
theorem pickScored_mem {scored : List Scored} {r : String}
    (h : pickScored scored = some r) : ∃ s ∈ scored, s.id = r := by
  unfold pickScored at h
  by_cases he : scored.isEmpty = true
  · rw [if_pos he] at h
    exact absurd h (by simp)
  · rw [if_neg he] at h
    by_cases hn : (scored.filter (fun s => s.near)).isEmpty = true
    · rw [if_pos hn] at h
      cases hsort : List.insertionSort farLe (scored.filter (fun s => !s.near)) with
      | nil =>
          rw [hsort] at h
          exact absurd (show (none : Option String) = some r from h) (by simp)
      | cons x xs =>
          rw [hsort] at h
          have hx : x ∈ List.insertionSort farLe (scored.filter (fun s => !s.near)) := by
            rw [hsort]; exact List.mem_cons_self x xs
          exact ⟨x, List.mem_of_mem_filter ((List.mem_insertionSort farLe).mp hx),
            Option.some.inj (show some x.id = some r from h)⟩
    · rw [if_neg hn] at h
      cases hsort : List.insertionSort nearLe (scored.filter (fun s => s.near)) with
      | nil =>
          rw [hsort] at h
          exact absurd (show (none : Option String) = some r from h) (by simp)
      | cons x xs =>
          rw [hsort] at h
          have hx : x ∈ List.insertionSort nearLe (scored.filter (fun s => s.near)) := by
            rw [hsort]; exact List.mem_cons_self x xs
          exact ⟨x, List.mem_of_mem_filter ((List.mem_insertionSort nearLe).mp hx),
            Option.some.inj (show some x.id = some r from h)⟩

theorem scoredId_mem {store : DStore} {targetCoord : Coord} {isConn : String → Bool}
    {linkQ : String → ℚ} {nearRadius : Coord} {confidence : ℚ} {backoff : String → ℚ}
    {candidates : List String} {sc : Scored}
    (h : sc ∈ candidates.filterMap (fun pid =>
      (getById store pid).map (scoreOf targetCoord isConn linkQ nearRadius confidence backoff pid))) :
    sc.id ∈ candidates := by
  obtain ⟨pid, hpid, hmap⟩ := List.mem_filterMap.mp h
  obtain ⟨e, he, heq⟩ := Option.map_eq_some'.mp hmap
  have hid : sc.id = pid := by rw [← heq]; simp
  rw [hid]
  exact hpid

theorem chooseNextHopCost_mem {store : DStore} {targetCoord : Coord} {candidates : List String}
    {isConn : String → Bool} {linkQ : String → ℚ} {nearRadius : Coord} {confidence : ℚ}
    {backoff : String → ℚ} {r : String}
    (h : chooseNextHopCost store targetCoord candidates isConn linkQ nearRadius confidence
      backoff = some r) : r ∈ candidates := by
  unfold chooseNextHopCost at h
  obtain ⟨sc, hsc, hid⟩ := pickScored_mem h
  rw [← hid]
  exact scoredId_mem hsc

theorem lscoredId_mem {store : DStore} {targetCoord : Coord} {isConn : String → Bool}
    {linkQ : String → ℚ} {candidates : List String} {sc : LScored}
    (h : sc ∈ candidates.filterMap (fun pid =>
      (getById store pid).map (lscoreOf targetCoord isConn linkQ pid))) :
    sc.id ∈ candidates := by
  obtain ⟨pid, hpid, hmap⟩ := List.mem_filterMap.mp h
  obtain ⟨e, he, heq⟩ := Option.map_eq_some'.mp hmap
  have hid : sc.id = pid := by rw [← heq]; simp
  rw [hid]
  exact hpid

theorem chooseNextHopLegacy_mem {store : DStore} {targetCoord : Coord} {candidates : List String}
    {isConn : String → Bool} {linkQ : String → ℚ} {tol : Nat} {r : String}
    (h : chooseNextHopLegacy store targetCoord candidates isConn linkQ tol = some r) :
    r ∈ candidates := by
  unfold chooseNextHopLegacy legacyPick at h
  cases hbb : bbFold none (candidates.filterMap (fun pid =>
      (getById store pid).map (lscoreOf targetCoord isConn linkQ pid))) with
  | none =>
      rw [hbb] at h
      exact absurd (show (none : Option String) = some r from h) (by simp)
  | some best =>
      rw [hbb] at h
      replace h : (match bcFold (leadingByteIndex best.2) tol none
          (candidates.filterMap (fun pid =>
            (getById store pid).map (lscoreOf targetCoord isConn linkQ pid))) with
        | some bc => some bc.id
        | none => some best.1) = some r := h
      cases hbc : bcFold (leadingByteIndex best.2) tol none
          (candidates.filterMap (fun pid =>
            (getById store pid).map (lscoreOf targetCoord isConn linkQ pid))) with
      | some bc =>
          rw [hbc] at h
          have hr : bc.id = r := Option.some.inj h
          rcases bcFold_mem _ _ _ _ _ hbc with hacc | ⟨hmem, -⟩
          · exact absurd hacc (by simp)
          · rw [← hr]
            exact lscoredId_mem hmem
      | none =>
          rw [hbc] at h
          have hr : best.1 = r := Option.some.inj h
          rcases bbFold_mem _ _ _ hbb with hacc | ⟨t, ht, hteq⟩
          · exact absurd hacc (by simp)
          · rw [← hr, ← hteq]
            exact lscoredId_mem ht

/-- `chooseNextHop` only returns a member of the candidate list. -/
theorem chooseNextHop_mem {store : DStore} {targetCoord : Coord} {candidates : List String}
    {isConn : String → Bool} {linkQ : String → ℚ} {opts : NextHopOptions} {r : String}
    (h : chooseNextHop store targetCoord candidates isConn linkQ opts = some r) :
    r ∈ candidates := by
  unfold chooseNextHop at h
  cases hnr : opts.nearRadius with
  | some rad =>
      rw [hnr] at h
      exact chooseNextHopCost_mem (show chooseNextHopCost store targetCoord candidates isConn
        linkQ rad (opts.confidence.getD (1/2)) (opts.backoffPenalty.getD (fun _ => 0)) =
          some r from h)
  | none =>
      rw [hnr] at h
      exact chooseNextHopLegacy_mem (show chooseNextHopLegacy store targetCoord candidates
        isConn linkQ (opts.connectedToleranceBytes.getD 1) = some r from h)

/-! ### Forwarding-step lemmas -/

theorem forwardCandidates_not_breadcrumb {ctx : Ctx} {cfg : FretConfig} {st : DStore}
    {msg : MsgV1} {coord : Coord} {pid : String}
    (h : pid ∈ forwardCandidates ctx cfg st msg coord) : pid ∉ msg.breadcrumbs := by
  unfold forwardCandidates at h
  have h2 := List.mem_filter.mp h
  have h3 : pid ∉ msg.breadcrumbs ++ [ctx.selfId] := of_decide_eq_true h2.2
  intro hmem
  exact h3 (List.mem_append_left _ hmem)

theorem forwardSend_forwards (ctx : Ctx) (cfg : FretConfig) (s : SState) (msg : MsgV1)
    (now : ℤ) (coord : Coord) (n conf : ℚ) (next : String) :
    (forwardSend ctx cfg s msg now coord n conf next).2.2 = [(next, fwdMsg ctx msg)] := by
  unfold forwardSend
  cases ctx.sendOutcome next (fwdMsg ctx msg) <;> rfl

theorem inClusterStep_forwards (ctx : Ctx) (cfg : FretConfig) (s : SState) (msg : MsgV1)
    (n conf : ℚ) : (inClusterStep ctx cfg s msg n conf).2.2 = [] := by
  unfold inClusterStep
  cases msg.activity <;> cases ctx.activityHandler <;> rfl

/-- Any copy forwarded by the forwarding step carries the decremented
TTL and appended breadcrumbs, and its target is a non-breadcrumb
candidate. -/
theorem forwardStep_spec (ctx : Ctx) (cfg : FretConfig) (s : SState) (msg : MsgV1)
    (now : ℤ) (coord : Coord) (n conf : ℚ) :
    ∀ tgt fwd, (tgt, fwd) ∈ (forwardStep ctx cfg s msg now coord n conf).2.2 →
      fwd = fwdMsg ctx msg ∧ tgt ∉ msg.breadcrumbs := by
  intro tgt fwd hmem
  cases hnext : chooseNextHop s.store coord (forwardCandidates ctx cfg s.store msg coord)
      ctx.isConn (fun id => linkQuality s.store id) (forwardOptions cfg s now n conf) with
  | none =>
      have heq : forwardStep ctx cfg s msg now coord n conf =
          (RouteResult.anchor (buildNearAnchor ctx cfg s.store coord n conf), s, []) := by
        unfold forwardStep
        rw [hnext]
      rw [heq] at hmem
      replace hmem : (tgt, fwd) ∈ ([] : List (String × MsgV1)) := hmem
      exact absurd hmem (List.not_mem_nil _)
  | some next =>
      have heq : forwardStep ctx cfg s msg now coord n conf =
          forwardSend ctx cfg s msg now coord n conf next := by
        unfold forwardStep
        rw [hnext]
      rw [heq, forwardSend_forwards ctx cfg s msg now coord n conf next] at hmem
      simp only [List.mem_singleton, Prod.mk.injEq] at hmem
      obtain ⟨htgt, hfwd⟩ := hmem
      refine ⟨hfwd, ?_⟩
      rw [htgt]
      exact forwardCandidates_not_breadcrumb (chooseNextHop_mem hnext)

/-! ### `handleMaybeAct` characterization lemmas -/

theorem handleMaybeAct_eq_loop (ctx : Ctx) (cfg : FretConfig) (s : SState) (msg : MsgV1)
    (now : ℤ) (hb : ctx.selfId ∈ msg.breadcrumbs) :
    handleMaybeAct ctx cfg s msg now =
      ⟨Resp.anchor (nearAnchorOnly ctx cfg s.store msg), s, [], HPath.loop⟩ := by
  unfold handleMaybeAct
  rw [if_pos hb]

theorem handleMaybeAct_eq_cached (ctx : Ctx) (cfg : FretConfig) (s : SState) (msg : MsgV1)
    (now : ℤ) (v : RouteResult) (hb : ctx.selfId ∉ msg.breadcrumbs)
    (hc : msg.correlationId ≠ "")
    (hdg : (dedupGet s.dedup msg.correlationId now).1 = some v) :
    handleMaybeAct ctx cfg s msg now =
      ⟨v.toResp, { s with dedup := (dedupGet s.dedup msg.correlationId now).2 }, [],
       HPath.cachedHit⟩ := by
  unfold handleMaybeAct
  rw [if_neg hb, if_pos hc, hdg]

theorem handleMaybeAct_eq_guards (ctx : Ctx) (cfg : FretConfig) (s : SState) (msg : MsgV1)
    (now : ℤ) (hb : ctx.selfId ∉ msg.breadcrumbs) (hc : msg.correlationId ≠ "")
    (hdg : (dedupGet s.dedup msg.correlationId now).1 = none) :
    handleMaybeAct ctx cfg s msg now =
      handleGuards ctx cfg { s with dedup := (dedupGet s.dedup msg.correlationId now).2 }
        msg now := by
  unfold handleMaybeAct
  rw [if_neg hb, if_pos hc, hdg]

theorem handleMaybeAct_eq_guards_nocid (ctx : Ctx) (cfg : FretConfig) (s : SState)
    (msg : MsgV1) (now : ℤ) (hb : ctx.selfId ∉ msg.breadcrumbs)
    (hc : ¬ msg.correlationId ≠ "") :
    handleMaybeAct ctx cfg s msg now = handleGuards ctx cfg s msg now := by
  unfold handleMaybeAct
  rw [if_neg hb, if_neg hc]

/-- Every non-`routed` return of the guard chain leaves the dedup cache
and the forward list untouched. -/
theorem handleGuards_cases (ctx : Ctx) (cfg : FretConfig) (s : SState) (msg : MsgV1)
    (now : ℤ) :
    (handleGuards ctx cfg s msg now).path = HPath.routed ∨
    ((handleGuards ctx cfg s msg now).state.dedup = s.dedup ∧
     (handleGuards ctx cfg s msg now).forwards = []) := by
  unfold handleGuards
  by_cases h1 : validateTs msg.timestamp now = false
  · rw [if_pos h1]; exact Or.inr ⟨rfl, rfl⟩
  · rw [if_neg h1]
    by_cases h2 : msg.ttl ≤ 0
    · rw [if_pos h2]; exact Or.inr ⟨rfl, rfl⟩
    · rw [if_neg h2]
      by_cases h3 : activityTooLarge msg = true
      · rw [if_pos h3]; exact Or.inr ⟨rfl, rfl⟩
      · rw [if_neg h3]
        by_cases h4 : (tryTake s.bucketMaybeAct now).1 = false
        · rw [if_pos h4]; exact Or.inr ⟨rfl, rfl⟩
        · rw [if_neg h4]
          by_cases h5 : maybeActLimit cfg ≤ s.inflightAct
          · rw [if_pos h5]; exact Or.inr ⟨rfl, rfl⟩
          · rw [if_neg h5]; exact Or.inl rfl

/-- On the `routed` path with a non-empty correlation id, the guard
chain's outcome carries `routeAct`'s result, with the result cached. -/
theorem handleGuards_routed_shape (ctx : Ctx) (cfg : FretConfig) (s : SState) (msg : MsgV1)
    (now : ℤ) (hpath : (handleGuards ctx cfg s msg now).path = HPath.routed)
    (hcne : msg.correlationId ≠ "") :
    ∃ (r : RouteResult) (dd : DCache),
      (handleGuards ctx cfg s msg now).resp = r.toResp ∧
      (handleGuards ctx cfg s msg now).state.dedup = dedupSet dd msg.correlationId r now := by
  unfold handleGuards at hpath ⊢
  by_cases h1 : validateTs msg.timestamp now = false
  · rw [if_pos h1] at hpath
    exact HPath.noConfusion hpath
  · rw [if_neg h1] at hpath ⊢
    by_cases h2 : msg.ttl ≤ 0
    · rw [if_pos h2] at hpath
      exact HPath.noConfusion hpath
    · rw [if_neg h2] at hpath ⊢
      by_cases h3 : activityTooLarge msg = true
      · rw [if_pos h3] at hpath
        exact HPath.noConfusion hpath
      · rw [if_neg h3] at hpath ⊢
        by_cases h4 : (tryTake s.bucketMaybeAct now).1 = false
        · rw [if_pos h4] at hpath
          exact HPath.noConfusion hpath
        · rw [if_neg h4] at hpath ⊢
          by_cases h5 : maybeActLimit cfg ≤ s.inflightAct
          · rw [if_pos h5] at hpath
            exact HPath.noConfusion hpath
          · rw [if_neg h5]
            refine ⟨(routeAct ctx cfg (bucketTaken s now) msg now).1,
              (routeAct ctx cfg (bucketTaken s now) msg now).2.1.dedup, rfl, ?_⟩
            show (if msg.correlationId ≠ "" then
                    dedupSet (routeAct ctx cfg (bucketTaken s now) msg now).2.1.dedup
                      msg.correlationId (routeAct ctx cfg (bucketTaken s now) msg now).1 now
                  else (routeAct ctx cfg (bucketTaken s now) msg now).2.1.dedup) =
              dedupSet (routeAct ctx cfg (bucketTaken s now) msg now).2.1.dedup
                msg.correlationId (routeAct ctx cfg (bucketTaken s now) msg now).1 now
            rw [if_pos hcne]

/-- On the `routed` path with a non-empty correlation id,
`handleMaybeAct`'s response is `routeAct`'s result and the dedup cache
holds it. -/
theorem handleMaybeAct_routed_shape (ctx : Ctx) (cfg : FretConfig) (s : SState) (msg : MsgV1)
    (now : ℤ) (hpath : (handleMaybeAct ctx cfg s msg now).path = HPath.routed)
    (hcne : msg.correlationId ≠ "") :
    ∃ (r : RouteResult) (dd : DCache),
      (handleMaybeAct ctx cfg s msg now).resp = r.toResp ∧
      (handleMaybeAct ctx cfg s msg now).state.dedup = dedupSet dd msg.correlationId r now := by
  by_cases hb : ctx.selfId ∈ msg.breadcrumbs
  · rw [handleMaybeAct_eq_loop ctx cfg s msg now hb] at hpath
    exact HPath.noConfusion hpath
  · cases hdg : (dedupGet s.dedup msg.correlationId now).1 with
    | some v =>
        rw [handleMaybeAct_eq_cached ctx cfg s msg now v hb hcne hdg] at hpath
        exact HPath.noConfusion hpath
    | none =>
        rw [handleMaybeAct_eq_guards ctx cfg s msg now hb hcne hdg] at hpath ⊢
        exact handleGuards_routed_shape ctx cfg _ msg now hpath hcne

/-! ### Concrete service fixtures -/

def c1Cfg : FretConfig := { k := 2, m := 2, capacity := 64, profileCore := true }

def c1Ctx : Ctx :=
  { selfId := "self"
    hashKeyF := fun _ => [100]
    hashPeerF := fun _ => [0]
    isConn := fun id => id == "p1"
    estimate := fun _ _ => (0, 1/2)
    sendOutcome := fun _ _ => SendResult.busy
    activityHandler := none
    successUpd := fun e => e }

def c1Store : DStore :=
  [freshEntry "self" [200], freshEntry "p1" [101], freshEntry "p2" [102], freshEntry "p3" [99]]

def c1Bucket : TokenBucket := { capacity := 32, rate := 16, tokens := 32, last := 0 }

def c1State : SState :=
  { store := c1Store, dedup := [], bucketMaybeAct := c1Bucket, inflightAct := 0, backoff := [] }

def c1Msg : MsgV1 :=
  { key := "K", wantK := some 2, ttl := 3, minSigs := 0, activity := none,
    breadcrumbs := ["other"], correlationId := "w", timestamp := 0 }

def c1MsgLoop : MsgV1 := { c1Msg with breadcrumbs := ["self"], correlationId := "" }

def c1Fwd : MsgV1 := { c1Msg with ttl := 2, breadcrumbs := ["other", "self"] }

def c2Ctx : Ctx := { c1Ctx with estimate := fun _ _ => (0, 1/4) }

def c2Msg1 : MsgV1 := { c1Msg with ttl := 0, correlationId := "c" }

def c2Msg2 : MsgV1 := { c1Msg with ttl := 3, correlationId := "c", breadcrumbs := [] }

def c2wMsg2 : MsgV1 := { c1Msg with key := "other", ttl := 9, timestamp := 50, breadcrumbs := [] }

def c10Msg : MsgV1 := { c1Msg with ttl := 0, correlationId := "x" }

def c10State : SState :=
  { c1State with dedup := [("x", { value := RouteResult.commit "old", expires := -5 })] }

/-! ### C1, C2, C10 -/

/-- C1: if a message's breadcrumbs contain the handler's own peer id,
`handleMaybeAct` answers with a `NearAnchor` (via `nearAnchorOnly`) and
forwards nothing; and every copy that `routeAct` forwards carries
`ttl` equal to the incoming `ttl` minus 1 and breadcrumbs equal to the
incoming breadcrumbs with self appended, to a target that is not among
the incoming breadcrumbs. -/
theorem maybeAct_forwarding_invariants (ctx : Ctx) (cfg : FretConfig) (s : SState)
    (msg : MsgV1) (now : ℤ) :
    (ctx.selfId ∈ msg.breadcrumbs →
      (handleMaybeAct ctx cfg s msg now).forwards = [] ∧
      (handleMaybeAct ctx cfg s msg now).resp =
        Resp.anchor (nearAnchorOnly ctx cfg s.store msg)) ∧
    (∀ tgt fwd, (tgt, fwd) ∈ (routeAct ctx cfg s msg now).2.2 →
      fwd.ttl = msg.ttl - 1 ∧
      fwd.breadcrumbs = msg.breadcrumbs ++ [ctx.selfId] ∧
      tgt ∉ msg.breadcrumbs) := by
  constructor
  · intro hb
    rw [handleMaybeAct_eq_loop ctx cfg s msg now hb]
    exact ⟨rfl, rfl⟩
  · intro tgt fwd hmem
    unfold routeAct at hmem
    by_cases hic : inClusterTest s.store ctx.selfId (ctx.hashKeyF msg.key)
        (max 2 (msg.wantK.getD cfg.k)) = true
    · rw [if_pos hic] at hmem
      rw [inClusterStep_forwards ctx cfg s msg (ctx.estimate s.store cfg.m).1
        (ctx.estimate s.store cfg.m).2] at hmem
      exact absurd hmem (List.not_mem_nil _)
    · rw [if_neg hic] at hmem
      by_cases httl : 0 < msg.ttl
      · rw [if_pos httl] at hmem
        obtain ⟨hfwd, htgt⟩ := forwardStep_spec ctx cfg s msg now (ctx.hashKeyF msg.key)
          (ctx.estimate s.store cfg.m).1 (ctx.estimate s.store cfg.m).2 tgt fwd hmem
        subst hfwd
        exact ⟨rfl, rfl, htgt⟩
      · rw [if_neg httl] at hmem
        replace hmem : (tgt, fwd) ∈ ([] : List (String × MsgV1)) := hmem
        exact absurd hmem (List.not_mem_nil _)

theorem maybeAct_forwarding_invariants_witness :
    ((handleMaybeAct c1Ctx c1Cfg c1State c1MsgLoop 0).forwards = [] ∧
     (handleMaybeAct c1Ctx c1Cfg c1State c1MsgLoop 0).resp =
       Resp.anchor (nearAnchorOnly c1Ctx c1Cfg c1State.store c1MsgLoop)) ∧
    (c1Fwd.ttl = c1Msg.ttl - 1 ∧
     c1Fwd.breadcrumbs = c1Msg.breadcrumbs ++ [c1Ctx.selfId] ∧
     "p1" ∉ c1Msg.breadcrumbs) :=
  ⟨(maybeAct_forwarding_invariants c1Ctx c1Cfg c1State c1MsgLoop 0).1
      (by with_unfolding_all decide),
   (maybeAct_forwarding_invariants c1Ctx c1Cfg c1State c1Msg 0).2 "p1" c1Fwd
      (by with_unfolding_all decide)⟩

/-- C2 counterexample: two `handleMaybeAct` invocations with the same
non-empty correlation id need not return the same result — the first
call here is rejected on `ttl ≤ 0`, rejections are not cached, and the
second call routes and returns a different anchor. -/
theorem handleMaybeAct_not_idempotent :
    c2Msg1.correlationId = c2Msg2.correlationId ∧ c2Msg1.correlationId ≠ "" ∧
    (handleMaybeAct c2Ctx c1Cfg (handleMaybeAct c2Ctx c1Cfg c1State c2Msg1 0).state
        c2Msg2 0).resp ≠
      (handleMaybeAct c2Ctx c1Cfg c1State c2Msg1 0).resp := by
  with_unfolding_all decide

/-- C2 (amended): when the first of two `handleMaybeAct` invocations
with the same non-empty correlation id completes the routing pipeline
(so its result is cached), the second invocation — whatever its other
fields — returns the first invocation's result, provided it is not
itself rejected as a breadcrumb loop and arrives within the 30-second
dedup TTL. -/
theorem handleMaybeAct_dedup_replay (ctx : Ctx) (cfg : FretConfig) (s : SState)
    (msg1 msg2 : MsgV1) (now1 now2 : ℤ)
    (hroute : (handleMaybeAct ctx cfg s msg1 now1).path = HPath.routed)
    (hne : msg1.correlationId ≠ "")
    (hcid : msg2.correlationId = msg1.correlationId)
    (hb2 : ctx.selfId ∉ msg2.breadcrumbs)
    (hfresh : now2 ≤ now1 + dedupTtlMs) :
    (handleMaybeAct ctx cfg (handleMaybeAct ctx cfg s msg1 now1).state msg2 now2).resp =
      (handleMaybeAct ctx cfg s msg1 now1).resp := by
  obtain ⟨r, dd, hresp, hdd⟩ := handleMaybeAct_routed_shape ctx cfg s msg1 now1 hroute hne
  have hc2 : msg2.correlationId ≠ "" := by rw [hcid]; exact hne
  have hfind : cacheFind (handleMaybeAct ctx cfg s msg1 now1).state.dedup
      msg2.correlationId = some ⟨r, now1 + dedupTtlMs⟩ := by
    rw [hcid, hdd]
    exact cacheFind_dedupSet dd msg1.correlationId r now1
  have hdg2 : (dedupGet (handleMaybeAct ctx cfg s msg1 now1).state.dedup
      msg2.correlationId now2).1 = some r := by
    rw [dedupGet_eq_live (handleMaybeAct ctx cfg s msg1 now1).state.dedup
      msg2.correlationId now2 ⟨r, now1 + dedupTtlMs⟩ hfind (not_lt.mpr hfresh)]
  rw [handleMaybeAct_eq_cached ctx cfg (handleMaybeAct ctx cfg s msg1 now1).state
    msg2 now2 r hb2 hc2 hdg2]
  rw [hresp]

theorem handleMaybeAct_dedup_replay_witness :
    (handleMaybeAct c1Ctx c1Cfg (handleMaybeAct c1Ctx c1Cfg c1State c1Msg 0).state
        c2wMsg2 100).resp =
      (handleMaybeAct c1Ctx c1Cfg c1State c1Msg 0).resp :=
  handleMaybeAct_dedup_replay c1Ctx c1Cfg c1State c1Msg c2wMsg2 0 100
    (by with_unfolding_all decide) (by with_unfolding_all decide)
    (by with_unfolding_all decide) (by with_unfolding_all decide)
    (by with_unfolding_all decide)

/-- C10: on every rejection or busy return (breadcrumb loop, stale
timestamp, `ttl ≤ 0`, oversized activity, rate limit, in-flight cap) the
dedup cache gains no binding: any binding found afterwards was already
present before the call, and a later lookup of the message's correlation
id observes exactly what it would observe against the pre-call cache, so
the next message with that correlation id is processed afresh. -/
theorem handleMaybeAct_no_cache_on_reject (ctx : Ctx) (cfg : FretConfig) (s : SState)
    (msg : MsgV1) (now t : ℤ)
    (hpath : (handleMaybeAct ctx cfg s msg now).path ≠ HPath.routed ∧
             (handleMaybeAct ctx cfg s msg now).path ≠ HPath.cachedHit)
    (ht : now ≤ t) :
    (∀ k v, cacheFind (handleMaybeAct ctx cfg s msg now).state.dedup k = some v →
        cacheFind s.dedup k = some v) ∧
    (dedupGet (handleMaybeAct ctx cfg s msg now).state.dedup msg.correlationId t).1 =
      (dedupGet s.dedup msg.correlationId t).1 := by
  by_cases hb : ctx.selfId ∈ msg.breadcrumbs
  · rw [handleMaybeAct_eq_loop ctx cfg s msg now hb]
    exact ⟨fun k v h => h, rfl⟩
  · by_cases hc : msg.correlationId ≠ ""
    · cases hdg : (dedupGet s.dedup msg.correlationId now).1 with
      | some v =>
          rw [handleMaybeAct_eq_cached ctx cfg s msg now v hb hc hdg] at hpath
          exact absurd rfl hpath.2
      | none =>
          rw [handleMaybeAct_eq_guards ctx cfg s msg now hb hc hdg] at hpath ⊢
          rcases handleGuards_cases ctx cfg
              { s with dedup := (dedupGet s.dedup msg.correlationId now).2 } msg now with
            hrt | hdd
          · exact absurd hrt hpath.1
          · rw [hdd.1]
            exact ⟨fun k v h => dedupGet_find_mono s.dedup msg.correlationId now k v h,
              dedupGet_obs_stable s.dedup msg.correlationId now t hdg ht⟩
    · rw [handleMaybeAct_eq_guards_nocid ctx cfg s msg now hb hc] at hpath ⊢
      rcases handleGuards_cases ctx cfg s msg now with hrt | hdd
      · exact absurd hrt hpath.1
      · rw [hdd.1]
        exact ⟨fun k v h => h, rfl⟩

theorem handleMaybeAct_no_cache_on_reject_witness :
    ((handleMaybeAct c1Ctx c1Cfg c10State c10Msg 0).path ≠ HPath.routed ∧
     (handleMaybeAct c1Ctx c1Cfg c10State c10Msg 0).path ≠ HPath.cachedHit) ∧
    (0 : ℤ) ≤ 5 ∧
    (dedupGet (handleMaybeAct c1Ctx c1Cfg c10State c10Msg 0).state.dedup
        c10Msg.correlationId 5).1 =
      (dedupGet c10State.dedup c10Msg.correlationId 5).1 :=
  ⟨by with_unfolding_all decide, by decide,
   (handleMaybeAct_no_cache_on_reject c1Ctx c1Cfg c10State c10Msg 0 5
      (by with_unfolding_all decide) (by decide)).2⟩

end Fret
